import Mathlib

/-!
# Verification of the Comfy-UmiAI template-expansion engine

Shallow embedding of the dynamic-prompt templating engine of the
Comfy-UmiAI repository (`shared_utils.py` and `nodes.py`), together with
theorems settling the specification claims about it.

Conventions used throughout:
* Python strings are modelled by Lean `String` (scanners work on `String.data`,
  the underlying `List Char`).
* Python dictionaries with string keys are modelled by ordered association
  lists `List (String × String)`; lookup takes the first matching key and
  insertion preserves order the way Python dicts do.
* Stateful methods become explicit state-passing functions.
* `while` loops with a data-dependent exit become fuel recursions; the fuel
  is always an explicit bound taken from the source (iteration caps) or the
  input length (character scanners consume at least one character per step).
* The Python `re` module is an external collaborator; the only place it is
  used with a *user-supplied* pattern (the `MATCHES` operator) is
  parameterised by an oracle `reSearch : String → String → Option Bool`
  (`none` models `re.error` for an invalid pattern).  Fixed patterns from
  the source are implemented directly.
-/

namespace Umi

/-! ## Python string / dict primitives -/

/-- Python `\s` for the ASCII range (also the characters `str.strip()` removes). -/
def isPySpace (c : Char) : Bool :=
  c = ' ' || c = '\t' || c = '\n' || c = '\x0d' || c = '\x0b' || c = '\x0c'

/-- Python `\w` for the ASCII range: letters, digits and underscore. -/
def isWordChar (c : Char) : Bool :=
  c.isAlpha || c.isDigit || c = '_'

/-- Python `str.strip()` on a character list. -/
def pyStripList (cs : List Char) : List Char :=
  ((cs.dropWhile isPySpace).reverse.dropWhile isPySpace).reverse

/-- Python `str.strip()`. -/
def pyStrip (s : String) : String :=
  ⟨pyStripList s.data⟩

/-- Python `sub in s` (substring containment) on character lists. -/
def containsSubList (cs sub : List Char) : Bool :=
  match cs with
  | [] => sub.isEmpty
  | _ :: rest => sub.isPrefixOf cs || containsSubList rest sub

/-- Python `sub in s` (substring containment). -/
def containsSub (s sub : String) : Bool :=
  containsSubList s.data sub.data

/-- Python `s.startswith(pre)`. -/
def pyStartsWith (s pre : String) : Bool :=
  pre.data.isPrefixOf s.data

/-- Python `s.endswith(suf)`. -/
def pyEndsWith (s suf : String) : Bool :=
  suf.data.isSuffixOf s.data

/-- Python `s[n:]`. -/
def pyDrop (s : String) (n : Nat) : String :=
  ⟨s.data.drop n⟩

/-- Python `s[:-n]` (for `n ≤ len s`; clamps at the empty string). -/
def pyDropRight (s : String) (n : Nat) : String :=
  ⟨s.data.take (s.data.length - n)⟩

/-- ASCII lowering, Python `str.lower()` for the ASCII range. -/
def pyLowerChar (c : Char) : Char :=
  if 'A' ≤ c && c ≤ 'Z' then Char.ofNat (c.toNat + 32) else c

/-- ASCII uppering, Python `str.upper()` for the ASCII range. -/
def pyUpperChar (c : Char) : Char :=
  if 'a' ≤ c && c ≤ 'z' then Char.ofNat (c.toNat - 32) else c

def pyLower (s : String) : String := ⟨s.data.map pyLowerChar⟩

def pyUpper (s : String) : String := ⟨s.data.map pyUpperChar⟩

/-- Python `", ".join`-style joining. -/
def joinSep (sep : String) : List String → String
  | [] => ""
  | [x] => x
  | x :: rest => x ++ sep ++ joinSep sep rest


/-- Ordered string-keyed map (a Python dict): first binding of a key wins. -/
abbrev VarMap := List (String × String)

/-- Python `d.get(k)`. -/
def vget (m : VarMap) (k : String) : Option String :=
  match m with
  | [] => none
  | (k', v) :: rest => if k' = k then some v else vget rest k

/-- Python `d.get(k, default)`. -/
def vgetD (m : VarMap) (k : String) (d : String) : String :=
  (vget m k).getD d

/-- Python `d[k] = v`: replace in place if the key exists, else append. -/
def vset (m : VarMap) (k : String) (v : String) : VarMap :=
  match m with
  | [] => [(k, v)]
  | (k', v') :: rest => if k' = k then (k', v) :: rest else (k', v') :: vset rest k v

/-- Python `k in d`. -/
def vmem (m : VarMap) (k : String) : Bool :=
  (vget m k).isSome

/-- Python `d.update(other)` for string-keyed dicts. -/
def vupdate (m other : VarMap) : VarMap :=
  other.foldl (fun acc kv => vset acc kv.1 kv.2) m

/-- Python `d.setdefault(k, v)` (the resulting dict). -/
def vsetdefault (m : VarMap) (k : String) (v : String) : VarMap :=
  if vmem m k then m else m ++ [(k, v)]

/-! ## LogicEvaluator (`shared_utils.py`, lines 376-821)

The boolean-expression evaluator: comment stripping and `=`→`==`
normalisation, the tokenizer, shunting-yard conversion to postfix, and the
postfix evaluator.  The `context` argument is the free-text (string) case
of the source; `re.search` with a user-supplied pattern (the `MATCHES`
operator) is an oracle argument `reSearch pattern target : Option Bool`
(`none` models `re.error`). -/

/-- Python `token.split(sep, 1)`: the pieces before and after the first
occurrence of `sep`, or `none` when `sep` does not occur. -/
def splitOnceList (cs sep : List Char) : Option (List Char × List Char) :=
  match cs with
  | [] => if sep.isEmpty then some ([], []) else none
  | c :: rest =>
    if sep.isPrefixOf cs then some ([], cs.drop sep.length)
    else
      match splitOnceList rest sep with
      | some (l, r) => some (c :: l, r)
      | none => none

/-- Python `re.split(r'[,\|]', s)`: split on every `,` or `|`. -/
def splitOnCommaPipe (cs : List Char) : List (List Char) :=
  match cs with
  | [] => [[]]
  | c :: rest =>
    let parts := splitOnCommaPipe rest
    if c = ',' || c = '|' then [] :: parts
    else
      match parts with
      | p :: ps => (c :: p) :: ps
      | [] => [[c]]

/-- `LogicEvaluator._strip_line_comments`: drop `//`-to-end-of-line outside
quotes, except when the `//` directly follows a `:`. -/
def stripLineCommentsGo : Nat → Option Char → Option Char → List Char → List Char
  | 0, _, _, cs => cs
  | _ + 1, _, _, [] => []
  | fuel + 1, some q, _, c :: rest =>
    c :: stripLineCommentsGo fuel (if c = q then none else some q) (some c) rest
  | fuel + 1, none, prev, c :: rest =>
    if c = '"' || c = '\'' then
      c :: stripLineCommentsGo fuel (some c) (some c) rest
    else if c = '/' && rest.head? = some '/' && prev ≠ some ':' then
      stripLineCommentsGo fuel none none ((rest.drop 1).dropWhile (· ≠ '\n'))
    else
      c :: stripLineCommentsGo fuel none (some c) rest

def stripLineComments (s : String) : String :=
  ⟨stripLineCommentsGo (s.data.length + 1) none none s.data⟩

/-- The single-`=`-to-`==` pass of `_normalize_expression` (outside quotes,
when the `=` is not part of `==` or `!=`). -/
def normEqGo : Nat → Option Char → Option Char → List Char → List Char
  | 0, _, _, cs => cs
  | _ + 1, _, _, [] => []
  | fuel + 1, inQ, prev, c :: rest =>
    if c = '"' || c = '\'' then
      match inQ with
      | some q =>
        if c = q then c :: normEqGo fuel none (some c) rest
        else c :: normEqGo fuel (some q) (some c) rest
      | none => c :: normEqGo fuel (some c) (some c) rest
    else if inQ = none && c = '=' then
      if prev ≠ some '!' && prev ≠ some '=' && rest.head? ≠ some '=' then
        '=' :: '=' :: normEqGo fuel inQ (some c) rest
      else c :: normEqGo fuel inQ (some c) rest
    else c :: normEqGo fuel inQ (some c) rest

/-- `re.sub(r'\s*(==|!=)\s*', r'\1', s)`: remove spaces around comparison
operators. -/
def collapseCmpSpacesGo : Nat → List Char → List Char
  | 0, cs => cs
  | _ + 1, [] => []
  | fuel + 1, cs =>
    let rest := cs.dropWhile isPySpace
    match rest with
    | '=' :: '=' :: rest2 => '=' :: '=' :: collapseCmpSpacesGo fuel (rest2.dropWhile isPySpace)
    | '!' :: '=' :: rest2 => '!' :: '=' :: collapseCmpSpacesGo fuel (rest2.dropWhile isPySpace)
    | _ =>
      match cs with
      | [] => []
      | c :: rest' => c :: collapseCmpSpacesGo fuel rest'

/-- `LogicEvaluator._normalize_expression`. -/
def normalizeExpression (s : String) : String :=
  if s = "" then s
  else
    let s1 := stripLineComments s
    let s2 : String := ⟨normEqGo (s1.data.length + 1) none none s1.data⟩
    ⟨collapseCmpSpacesGo (s2.data.length + 1) s2.data⟩

/-- `LogicEvaluator._strip_quotes`. -/
def stripQuotes (s : String) : String :=
  let v := pyStripList s.data
  if v.length ≥ 2 &&
      (match v.head?, v.getLast? with
        | some a, some b => a = b && (a = '"' || a = '\'')
        | _, _ => false) then
    ⟨(v.drop 1).dropLast⟩
  else ⟨v⟩

/-- Word-boundary characters of the tokenizer (`is_word_boundary`): start,
end, whitespace or parentheses. -/
def tokBoundary : Option Char → Bool
  | none => true
  | some c => c = ' ' || c = '\t' || c = '\n' || c = '(' || c = ')'

/-- Case-insensitive prefix test: `expr[i:i+n].upper() == lit`. -/
def ciAt (cs : List Char) (lit : String) : Bool :=
  (cs.take lit.data.length).map pyUpperChar = lit.data

/-- Append `current.strip()` to the token list when non-empty. -/
def flushTok (acc : List String) (current : List Char) : List String :=
  let t := pyStripList current
  if t.isEmpty then acc else acc ++ [⟨t⟩]

/-- `expr` starts with the two-character symbol `sym`. -/
def startsWithSym (cs : List Char) (sym : String) : Bool :=
  sym.data.isPrefixOf cs

/-- The word operators, with their lengths, in the order the tokenizer
tries them. -/
def wordOps : List (String × Nat) :=
  [("NAND", 4), ("AND", 3), ("NOT", 3), ("XOR", 3), ("NOR", 3), ("OR", 2),
    ("IN", 2), ("CONTAINS", 8), ("MATCHES", 7), ("STARTSWITH", 10), ("ENDSWITH", 8)]

/-- Try the word operators at the current position (boundary on both
sides), returning the matched operator and its length. -/
def matchWordOp (prev : Option Char) (cs : List Char) : Option (String × Nat) :=
  wordOps.findSome? fun (op, n) =>
    if ciAt cs op && tokBoundary prev && tokBoundary (cs.drop n).head? then
      some (op, n)
    else none

/-- `LogicEvaluator.tokenize`. -/
def tokenizeGo : Nat → Option Char → Option Char → List Char → List Char →
    List String → List String
  | 0, _, _, current, _, acc => flushTok acc current
  | _ + 1, _, _, current, [], acc => flushTok acc current
  | fuel + 1, some q, _, current, c :: rest, acc =>
    tokenizeGo fuel (if c = q then none else some q) (some c) (current ++ [c]) rest acc
  | fuel + 1, none, prev, current, c :: rest, acc =>
    if c = '"' || c = '\'' then
      tokenizeGo fuel (some c) (some c) (current ++ [c]) rest acc
    else if c = '(' || c = ')' then
      tokenizeGo fuel none (some c) [] rest (flushTok acc current ++ [⟨[c]⟩])
    else if isPySpace c then
      tokenizeGo fuel none (some c) [] rest (flushTok acc current)
    else if startsWithSym (c :: rest) "&&" then
      tokenizeGo fuel none (some '&') [] (rest.drop 1) (flushTok acc current ++ ["AND"])
    else if startsWithSym (c :: rest) "||" then
      tokenizeGo fuel none (some '|') [] (rest.drop 1) (flushTok acc current ++ ["OR"])
    else if c = '!' then
      tokenizeGo fuel none (some c) [] rest (flushTok acc current ++ ["NOT"])
    else if c = '^' then
      tokenizeGo fuel none (some c) [] rest (flushTok acc current ++ ["XOR"])
    else
      match matchWordOp prev (c :: rest) with
      | some (op, n) =>
        tokenizeGo fuel none ((c :: rest).take n).getLast? [] ((c :: rest).drop n)
          (flushTok acc current ++ [op])
      | none => tokenizeGo fuel none (some c) (current ++ [c]) rest acc

def tokenize (s : String) : List String :=
  tokenizeGo (s.data.length + 1) none none [] s.data []

/-- The operator-precedence table of `to_postfix`. -/
def precOf (t : String) : Option Nat :=
  if t = "NOT" then some 3
  else if t = "AND" then some 2
  else if t = "NAND" then some 2
  else if t = "XOR" then some 1
  else if t = "OR" then some 1
  else if t = "NOR" then some 1
  else if t = "IN" then some 4
  else if t = "CONTAINS" then some 4
  else if t = "MATCHES" then some 4
  else if t = "STARTSWITH" then some 4
  else if t = "ENDSWITH" then some 4
  else none

/-- Pop the operators of precedence at least `p` off the stack (the inner
`while` of `to_postfix`). -/
def popGE (p : Nat) : List String → List String × List String
  | [] => ([], [])
  | t :: rest =>
    if t ≠ "(" && (precOf t).isSome && (precOf t).getD 0 ≥ p then
      let (out, st) := popGE p rest
      (t :: out, st)
    else ([], t :: rest)

/-- Pop up to (and drop) the matching `(` (the `)` case of `to_postfix`). -/
def popUntilParen : List String → List String × List String
  | [] => ([], [])
  | t :: rest =>
    if t = "(" then ([], rest)
    else
      let (out, st) := popUntilParen rest
      (t :: out, st)

/-- `LogicEvaluator.to_postfix` (shunting-yard; the stack's head is its
top). -/
def toPostfixGo : List String → List String → List String → List String
  | [], stack, out => out ++ stack
  | tok :: rest, stack, out =>
    match precOf tok with
    | some p =>
      let (popped, st) := popGE p stack
      toPostfixGo rest (tok :: st) (out ++ popped)
    | none =>
      if tok = "(" then toPostfixGo rest (tok :: stack) out
      else if tok = ")" then
        let (popped, st) := popUntilParen stack
        toPostfixGo rest st (out ++ popped)
      else toPostfixGo rest stack (out ++ [tok])

def toPostfixTokens (tokens : List String) : List String :=
  toPostfixGo tokens [] []

/-- An operand on the evaluation stack of `evaluate_postfix` (the dicts
with a `kind` key, or a raw Python bool pushed by a comparison). -/
inductive StackVal where
  | svar (name : String)
  | squoted (value : String)
  | sbare (value : String)
  | sbool (b : Bool)
deriving DecidableEq, Repr

/-- Search `tok` in `ctx` with `\b` word boundaries on both sides
(`re.search(r'\b' + re.escape(tok) + r'\b', ctx)`), for a non-empty `tok`;
for an empty `tok` the pattern `\b\b` matches iff `ctx` has a word
character. -/
def wordBoundarySearchGo : Option Char → List Char → List Char → Bool
  | pre, tok, remaining =>
    let isW : Option Char → Bool := fun o => o.elim false isWordChar
    let hit :=
      tok.isPrefixOf remaining &&
      (isW pre != isW tok.head?) &&
      (isW tok.getLast? != isW (remaining.drop tok.length).head?)
    match remaining with
    | [] => hit
    | c :: rest => hit || wordBoundarySearchGo (some c) tok rest

def wordBoundarySearch (tok ctx : List Char) : Bool :=
  if tok.isEmpty then ctx.any isWordChar
  else wordBoundarySearchGo none tok ctx

/-- The `_coerce_bool` helper of `evaluate_postfix` (string context). -/
def coerceBool (vars : VarMap) (ctxLower : String) : StackVal → Bool
  | .svar name =>
    match vget vars name with
    | none => false
    | some v => v ≠ "" && !(["false", "0", "no", ""].contains (pyLower v))
  | .squoted v => v ≠ ""
  | .sbare v =>
    let tl := pyLower v
    if tl.data.any isPySpace then containsSub ctxLower tl
    else wordBoundarySearch tl.data ctxLower.data
  | .sbool b => b

/-- The `_coerce_str` helper of `evaluate_postfix`. -/
def coerceStr (vars : VarMap) : StackVal → String
  | .svar name => vgetD vars name ""
  | .squoted v => v
  | .sbare v => v
  | .sbool b => if b then "True" else "False"

/-- The catch-all operand branch of `evaluate_postfix`: comparison tokens
(`!=`, `==`, bare `=`), `$var`, quoted and bare tokens. -/
def evalOperandToken (vars : VarMap) (token : String) : StackVal :=
  if containsSub token "!=" then
    match splitOnceList token.data "!=".data with
    | some (l, r) =>
      let left := pyStripList l
      let right := stripQuotes (pyStrip ⟨r⟩)
      if left.head? = some '$' then
        .sbool (pyLower (vgetD vars ⟨left.drop 1⟩ "") ≠ pyLower right)
      else .sbool (pyLower (stripQuotes ⟨left⟩) ≠ pyLower right)
    | none => .sbare token
  else if containsSub token "==" then
    match splitOnceList token.data "==".data with
    | some (l, r) =>
      let left := pyStripList l
      let right := stripQuotes (pyStrip ⟨r⟩)
      if left.head? = some '$' then
        .sbool (pyLower (vgetD vars ⟨left.drop 1⟩ "") = pyLower right)
      else .sbool (pyLower (stripQuotes ⟨left⟩) = pyLower right)
    | none => .sbare token
  else if containsSub token "=" then
    match splitOnceList token.data "=".data with
    | some (l, r) =>
      let left := pyStripList l
      let right := stripQuotes (pyStrip ⟨r⟩)
      if left.head? = some '$' then
        .sbool (pyLower (vgetD vars ⟨left.drop 1⟩ "") = pyLower right)
      else .sbool (pyLower (stripQuotes ⟨left⟩) = pyLower right)
    | none => .sbare token
  else if pyStartsWith token "$" then .svar (pyDrop token 1)
  else if (pyStartsWith token "'" || pyStartsWith token "\"") &&
      (pyEndsWith token "'" || pyEndsWith token "\"") && token.data.length ≥ 2 then
    .squoted (stripQuotes token)
  else .sbare token

/-- `LogicEvaluator.evaluate_postfix`.  `reSearch pattern target` is the
`re.search(pattern, target, re.IGNORECASE) is not None` oracle (`none`
models `re.error`).  An operator finding too few operands returns `False`
immediately; at the end the result coerces the **bottom** stack entry
(`stack[0]` in the source). -/
def evaluatePostfixGo (reSearch : String → String → Option Bool)
    (vars : VarMap) (ctxLower : String) :
    List String → List StackVal → Bool
  | [], stack =>
    match stack.getLast? with
    | none => false
    | some v => coerceBool vars ctxLower v
  | tok :: rest, stack =>
    if tok = "AND" then
      match stack with
      | b :: a :: st =>
        evaluatePostfixGo reSearch vars ctxLower rest
          (.sbool (coerceBool vars ctxLower a && coerceBool vars ctxLower b) :: st)
      | _ => false
    else if tok = "OR" then
      match stack with
      | b :: a :: st =>
        evaluatePostfixGo reSearch vars ctxLower rest
          (.sbool (coerceBool vars ctxLower a || coerceBool vars ctxLower b) :: st)
      | _ => false
    else if tok = "NOT" then
      match stack with
      | a :: st =>
        evaluatePostfixGo reSearch vars ctxLower rest
          (.sbool (!coerceBool vars ctxLower a) :: st)
      | _ => false
    else if tok = "XOR" then
      match stack with
      | b :: a :: st =>
        evaluatePostfixGo reSearch vars ctxLower rest
          (.sbool (coerceBool vars ctxLower a != coerceBool vars ctxLower b) :: st)
      | _ => false
    else if tok = "NAND" then
      match stack with
      | b :: a :: st =>
        evaluatePostfixGo reSearch vars ctxLower rest
          (.sbool (!(coerceBool vars ctxLower a && coerceBool vars ctxLower b)) :: st)
      | _ => false
    else if tok = "NOR" then
      match stack with
      | b :: a :: st =>
        evaluatePostfixGo reSearch vars ctxLower rest
          (.sbool (!(coerceBool vars ctxLower a || coerceBool vars ctxLower b)) :: st)
      | _ => false
    else if tok = "IN" then
      match stack with
      | b :: a :: st =>
        let right := pyLower (coerceStr vars b)
        let left := pyLower (coerceStr vars a)
        let res :=
          if containsSub right "," || containsSub right "|" then
            let parts := ((splitOnCommaPipe right.data).map pyStripList).filter (· ≠ [])
            parts.contains left.data
          else containsSub right left
        evaluatePostfixGo reSearch vars ctxLower rest (.sbool res :: st)
      | _ => false
    else if tok = "CONTAINS" then
      match stack with
      | b :: a :: st =>
        let right := pyLower (coerceStr vars b)
        let left := pyLower (coerceStr vars a)
        evaluatePostfixGo reSearch vars ctxLower rest
          (.sbool (containsSub left right) :: st)
      | _ => false
    else if tok = "MATCHES" then
      match stack with
      | b :: a :: st =>
        let pattern := coerceStr vars b
        let target := coerceStr vars a
        evaluatePostfixGo reSearch vars ctxLower rest
          (.sbool ((reSearch pattern target).getD false) :: st)
      | _ => false
    else if tok = "STARTSWITH" then
      match stack with
      | b :: a :: st =>
        let right := pyLower (coerceStr vars b)
        let left := pyLower (coerceStr vars a)
        evaluatePostfixGo reSearch vars ctxLower rest
          (.sbool (pyStartsWith left right) :: st)
      | _ => false
    else if tok = "ENDSWITH" then
      match stack with
      | b :: a :: st =>
        let right := pyLower (coerceStr vars b)
        let left := pyLower (coerceStr vars a)
        evaluatePostfixGo reSearch vars ctxLower rest
          (.sbool (pyEndsWith left right) :: st)
      | _ => false
    else
      evaluatePostfixGo reSearch vars ctxLower rest (evalOperandToken vars tok :: stack)

def evaluatePostfixTokens (reSearch : String → String → Option Bool)
    (vars : VarMap) (pf : List String) (ctx : String) : Bool :=
  evaluatePostfixGo reSearch vars (pyLower ctx) pf []

/-- `LogicEvaluator.evaluate` (constructor normalisation included:
`LogicEvaluator(expr, vars).evaluate(ctx)`). -/
def evaluate (reSearch : String → String → Option Bool)
    (expr : String) (vars : VarMap) (ctx : String) : Bool :=
  let e := normalizeExpression (pyStrip expr)
  evaluatePostfixTokens reSearch vars (toPostfixTokens (tokenize e)) ctx

/-- A trivial `re.search` oracle used for closed instances. -/
def reNone : String → String → Option Bool := fun _ _ => none

/-! ## DynamicPromptReplacer: percentage-weighted choice
(`shared_utils.py`, `DynamicPromptReplacer.replace_combinations`,
lines 837-924, the `'%' in content and '$$' not in content` branch)

The roll `self.rng.random() * 100 ∈ [0, 100)` is an explicit rational
argument.  Python floats are modelled by exact rationals; `float(...)`
parsing covers the decimal/exponent fragment (`inf`/`nan`/underscore forms
are treated as unparsable). -/

/-- Digit-string to number. -/
def digitsToNat (ds : List Char) : Nat :=
  ds.foldl (fun a c => a * 10 + (c.toNat - 48)) 0

/-- Python `float(s)` on the decimal/exponent fragment. -/
def pyFloat (s : String) : Option ℚ :=
  let cs := pyStripList s.data
  let (sgn, cs) : ℚ × List Char :=
    match cs with
    | '+' :: r => (1, r)
    | '-' :: r => (-1, r)
    | r => (1, r)
  let ip := cs.takeWhile Char.isDigit
  let cs1 := cs.dropWhile Char.isDigit
  let (fp, cs2) : List Char × List Char :=
    match cs1 with
    | '.' :: r => (r.takeWhile Char.isDigit, r.dropWhile Char.isDigit)
    | r => ([], r)
  if ip.isEmpty && fp.isEmpty then none
  else
    let mant : ℚ := sgn * ((digitsToNat ip : ℚ) + (digitsToNat fp : ℚ) / (10 ^ fp.length))
    match cs2 with
    | [] => some mant
    | 'e' :: r => pyFloatExp mant r
    | 'E' :: r => pyFloatExp mant r
    | _ => none
where
  pyFloatExp (mant : ℚ) (r : List Char) : Option ℚ :=
    let (esgn, r1) : Int × List Char :=
      match r with
      | '+' :: rr => (1, rr)
      | '-' :: rr => (-1, rr)
      | rr => (1, rr)
    let ed := r1.takeWhile Char.isDigit
    if ed.isEmpty || !(r1.dropWhile Char.isDigit).isEmpty then none
    else some (mant * (10 : ℚ) ^ (esgn * (digitsToNat ed : Int)))

/-- One option of a percentage block (`{'pct': float|None, 'text': str}`;
the `has_pct` flag of the source is `pct.isSome`). -/
structure PctOpt where
  pct : Option ℚ
  text : String
deriving DecidableEq, Repr

/-- Python `content.split('|')`. -/
def splitOnPipe (cs : List Char) : List (List Char) :=
  match cs with
  | [] => [[]]
  | c :: rest =>
    let parts := splitOnPipe rest
    if c = '|' then [] :: parts
    else
      match parts with
      | p :: ps => (c :: p) :: ps
      | [] => [[c]]

/-- The option-parsing loop of the percentage branch: returns the options
plus `total_explicit_pct`, `unassigned_count` and `has_percentage`. -/
def parsePctParts (parts : List String) : List PctOpt × ℚ × Nat × Bool :=
  parts.foldl
    (fun acc part =>
      let (opts, total, unassigned, hasPct) := acc
      let part := pyStrip part
      if containsSub part "%" then
        match splitOnceList part.data "%".data with
        | some (l, r) =>
          match pyFloat ⟨l⟩ with
          | some pct => (opts ++ [⟨some pct, pyStrip ⟨r⟩⟩], total + pct, unassigned, true)
          | none => (opts ++ [⟨none, part⟩], total, unassigned + 1, hasPct)
        | none => (opts ++ [⟨none, part⟩], total, unassigned + 1, hasPct)
      else (opts ++ [⟨none, part⟩], total, unassigned + 1, hasPct))
    ([], 0, 0, false)

/-- Fill the shares of the options without an explicit percentage: `0` when
the explicit sum is at least 100, else an equal split of the remainder. -/
def fillPct (opts : List PctOpt) (totalExplicit : ℚ) (unassigned : Nat) :
    List PctOpt :=
  if totalExplicit ≥ 100 then
    opts.map fun o => ⟨some (o.pct.getD 0), o.text⟩
  else
    let share : ℚ := if unassigned > 0 then (100 - totalExplicit) / unassigned else 0
    opts.map fun o => ⟨some (o.pct.getD share), o.text⟩

/-- `sum(opt['pct'] for opt in options)`. -/
def pctTotal (opts : List PctOpt) : ℚ :=
  (opts.map fun o => o.pct.getD 0).sum

/-- The cumulative walk: the first option whose cumulative sum strictly
exceeds the roll (`if roll < cumulative`). -/
def walkPctGo (roll : ℚ) : ℚ → List PctOpt → Option String
  | _, [] => none
  | cum, o :: rest =>
    let cum' := cum + o.pct.getD 0
    if roll < cum' then some o.text else walkPctGo roll cum' rest

/-- The percentage branch of `replace_combinations` for a block content
already stripped of its braces: `none` when the branch is not taken (the
sequential `~` path, no `%`, a `$$`, or no valid explicit percentage). -/
def pctBranch (content : String) (roll : ℚ) : Option String :=
  if pyStartsWith content "~" then none
  else if !(containsSub content "%") || containsSub content "$$" then none
  else
    let parts := (splitOnPipe content.data).map fun p => (⟨p⟩ : String)
    let (options, totalExplicit, unassigned, hasPct) := parsePctParts parts
    if !hasPct then none
    else
      let filled := fillPct options totalExplicit unassigned
      let total1 := pctTotal filled
      let scaled :=
        if total1 > 100 then
          filled.map fun o => ⟨some (o.pct.getD 0 * (100 / total1)), o.text⟩
        else filled
      let totalPct : ℚ := if total1 > 100 then 100 else total1
      match walkPctGo roll 0 scaled with
      | some t => some t
      | none =>
        if totalPct ≥ 100 && !scaled.isEmpty then
          some ((scaled.getLast?).elim "" PctOpt.text)
        else some ""

/-- Modelled from the spec's words for comparison: the walk that picks the
first option whose cumulative sum is **greater than or equal to** the roll
(the claim's reading), otherwise identical to `pctBranch`. -/
def specWalkGeqGo (roll : ℚ) : ℚ → List PctOpt → Option String
  | _, [] => none
  | cum, o :: rest =>
    let cum' := cum + o.pct.getD 0
    if cum' ≥ roll then some o.text else specWalkGeqGo roll cum' rest

/-- Modelled from the spec's words: `pctBranch` with the `≥` winner rule
of the claim. -/
def specPctBranchGeq (content : String) (roll : ℚ) : Option String :=
  if pyStartsWith content "~" then none
  else if !(containsSub content "%") || containsSub content "$$" then none
  else
    let parts := (splitOnPipe content.data).map fun p => (⟨p⟩ : String)
    let (options, totalExplicit, unassigned, hasPct) := parsePctParts parts
    if !hasPct then none
    else
      let filled := fillPct options totalExplicit unassigned
      let total1 := pctTotal filled
      let scaled :=
        if total1 > 100 then
          filled.map fun o => ⟨some (o.pct.getD 0 * (100 / total1)), o.text⟩
        else filled
      let totalPct : ℚ := if total1 > 100 then 100 else total1
      match specWalkGeqGo roll 0 scaled with
      | some t => some t
      | none =>
        if totalPct ≥ 100 && !scaled.isEmpty then
          some ((scaled.getLast?).elim "" PctOpt.text)
        else some ""

/-! ## TagSelector loop guard (`nodes.py`, `TagSelector.select`, lines 1005-1010)

```python
def select(self, tag, groups=None):
    self.previously_selected_tags.setdefault(tag, 0)
    if self.previously_selected_tags.get(tag) > 500:
        return f"LOOP_ERROR({tag})"
    self.previously_selected_tags[tag] += 1
    ...
```

The counter map is `previously_selected_tags : map<tag, count>`.  The guard
is the very first thing `select` does, so it is modelled as a function from
the counter map and the requested tag to either the sentinel (selection
refused) or the updated counter map (selection proceeds with the rest of the
body). -/

/-- Counter map `previously_selected_tags`. -/
abbrev TagCounts := List (String × Nat)

def tcGet (m : TagCounts) (k : String) : Option Nat :=
  match m with
  | [] => none
  | (k', v) :: rest => if k' = k then some v else tcGet rest k

def tcSet (m : TagCounts) (k : String) (v : Nat) : TagCounts :=
  match m with
  | [] => [(k, v)]
  | (k', v') :: rest => if k' = k then (k', v) :: rest else (k', v') :: tcSet rest k v

def tcSetdefault (m : TagCounts) (k : String) (v : Nat) : TagCounts :=
  if (tcGet m k).isSome then m else m ++ [(k, v)]

/-- The loop guard at the top of `TagSelector.select`.  Returns
`(some sentinel, counts')` when the selection is refused and
`(none, counts')` when the body of `select` runs. -/
def selectLoopGuard (counts : TagCounts) (tag : String) :
    Option String × TagCounts :=
  let counts1 := tcSetdefault counts tag 0
  let cnt := (tcGet counts1 tag).getD 0
  if cnt > 500 then
    (some ("LOOP_ERROR(" ++ tag ++ ")"), counts1)
  else
    (none, tcSet counts1 tag (cnt + 1))

/-- Iterate `select`'s guard `n` times for the same tag, starting from
`counts` (each successful pass increments the tag's counter, mirroring `n`
selections of the same literal tag within one run). -/
def selectLoopGuardIter (tag : String) : Nat → TagCounts → TagCounts
  | 0, counts => counts
  | n + 1, counts => selectLoopGuardIter tag n (selectLoopGuard counts tag).2

/-! ## Recursive nested-wildcard resolution
(`nodes.py`, `TagSelector.resolve_wildcard_recursively`, lines 898-916)

```python
def resolve_wildcard_recursively(self, value, seed_id=None):
    if value.startswith('__') and value.endswith('__'):
        nested_tag = value[2:-2]
        nested_seed = f"{seed_id}_{nested_tag}" if seed_id else None
        if nested_tag in self.processing_stack:
            return value
        self.processing_stack.add(nested_tag)
        if nested_seed and nested_seed in self.resolved_seeds:
            resolved = self.resolved_seeds[nested_seed]
        else:
            resolved = self.select(nested_tag)
            if nested_seed:
                self.resolved_seeds[nested_seed] = resolved
        self.processing_stack.remove(nested_tag)
        return resolved
    return value
```

The mutually recursive `select` is passed in as an explicit function over
the selector state (it is the rest of the huge `TagSelector`; the claim is
about the `processing_stack` guard, which is independent of it). -/

/-- The `TagSelector` state touched by `resolve_wildcard_recursively`:
the recursion-cycle guard set and the `resolved_seeds` memo table. -/
structure SelState where
  processingStack : List String
  resolvedSeeds : List (String × String)
deriving DecidableEq, Repr

def ssGet (m : List (String × String)) (k : String) : Option String :=
  match m with
  | [] => none
  | (k', v) :: rest => if k' = k then some v else ssGet rest k

def ssSet (m : List (String × String)) (k : String) (v : String) :
    List (String × String) :=
  match m with
  | [] => [(k, v)]
  | (k', v') :: rest => if k' = k then (k', v) :: rest else (k', v') :: ssSet rest k v

/-- `TagSelector.resolve_wildcard_recursively`, with the mutually recursive
`select` supplied as a function of the state. -/
def resolveWildcardRecursively
    (sel : String → SelState → String × SelState)
    (value : String) (seedId : Option String) (st : SelState) :
    String × SelState :=
  if pyStartsWith value "__" && pyEndsWith value "__" then
    let nestedTag := pyDropRight (pyDrop value 2) 2
    let nestedSeed : Option String :=
      match seedId with
      | some s => some (s ++ "_" ++ nestedTag)
      | none => none
    if nestedTag ∈ st.processingStack then
      (value, st)
    else
      let st1 : SelState := { st with processingStack := nestedTag :: st.processingStack }
      let (resolved, st2) :=
        match nestedSeed with
        | some ns =>
          match ssGet st1.resolvedSeeds ns with
          | some r => (r, st1)
          | none =>
            let (r, st') := sel nestedTag st1
            (r, { st' with resolvedSeeds := ssSet st'.resolvedSeeds ns r })
        | none => sel nestedTag st1
      (resolved, { st2 with processingStack := st2.processingStack.erase nestedTag })
  else
    (value, st)

/-! ## Trace / debug context and summary lines

`shared_utils.py` (`TagSelectorBase`, lines 1821-1861) and `nodes.py`
(`append_trace_summary` / `append_debug_summary`, lines 265-355, and the
final stage of `UmiPromptProcessor.process`, lines 2150-2153).

`init_debug_context` / `init_trace_context` run inside `TagSelector.select`
on the shared variables dict; they read the wall clock
(`datetime.now().timestamp() * 1000`), which is modelled by an explicit
`nowMs` argument.  `seed` and `nowMs` are Python ints. -/

/-- `TagSelectorBase.is_debug_enabled` (values are strings in a run). -/
def isDebugEnabled (vars : VarMap) : Bool :=
  match vget vars "debug" with
  | some v => ["1", "true", "yes", "on"].contains (pyLower (pyStrip v))
  | none => false

/-- `TagSelectorBase.is_trace_enabled`. -/
def isTraceEnabled (vars : VarMap) : Bool :=
  match vget vars "trace" with
  | some v => ["1", "true", "yes", "on"].contains (pyLower (pyStrip v))
  | none => false

/-- `TagSelectorBase.init_debug_context`: seeds `debug_seed`,
`debug_run_id` (embedding the wall clock) and `debug_summary` when debug
mode is on and they are not already present. -/
def initDebugContext (vars : VarMap) (seed nowMs : Int) : VarMap :=
  if !isDebugEnabled vars then vars
  else
    let v1 := if vmem vars "debug_seed" then vars
      else vset vars "debug_seed" (toString seed)
    let v2 := if vmem v1 "debug_run_id" then v1
      else vset v1 "debug_run_id" (toString seed ++ "-" ++ toString nowMs)
    if vmem v2 "debug_summary" then v2 else vset v2 "debug_summary" "1"

/-- `TagSelectorBase.init_trace_context`. -/
def initTraceContext (vars : VarMap) (seed nowMs : Int) : VarMap :=
  if !isTraceEnabled vars then vars
  else
    let v1 := if vmem vars "trace_seed" then vars
      else vset vars "trace_seed" (toString seed)
    let v2 := if vmem v1 "trace_run_id" then v1
      else vset v1 "trace_run_id" (toString seed ++ "-" ++ toString nowMs)
    if vmem v2 "trace_summary" then v2 else vset v2 "trace_summary" "1"

/-- The `_level` helper of the summary functions, for string (or absent)
values of the `trace` / `debug` variable. -/
def summaryLevel (val : Option String) : Nat :=
  match val with
  | none => 1
  | some s =>
    let t := pyStrip s
    if t ≠ "" && t.data.all Char.isDigit then
      t.data.foldl (fun acc c => acc * 10 + (c.toNat - 48)) 0
    else if ["true", "yes", "on"].contains (pyLower t) then 1
    else 0

/-- One optional `key=value` summary part: emitted only when the variable
is present and truthy (non-empty). -/
def summaryPart (vars : VarMap) (key label : String) : List String :=
  match vget vars key with
  | some v => if v = "" then [] else [label ++ v]
  | none => []

/-- `nodes.py` `append_trace_summary`. -/
def appendTraceSummary (prompt : String) (vars : VarMap) : String :=
  match vget vars "trace_summary" with
  | none => prompt
  | some s =>
    if s = "" || ["0", "false", "False"].contains (pyStrip s) then prompt
    else
      let level := summaryLevel (vget vars "trace")
      let parts :=
        ["TRACE", "seed=" ++ vgetD vars "trace_seed" "",
          "run=" ++ vgetD vars "trace_run_id" ""] ++
        summaryPart vars "trace_last_type" "type=" ++
        summaryPart vars "trace_last_source" "src=" ++
        summaryPart vars "trace_last_pick" "pick=" ++
        (if level ≥ 2 then
          summaryPart vars "trace_row_id" "row_id=" ++
          summaryPart vars "trace_row_index" "row=" ++
          summaryPart vars "trace_yaml_entry" "yaml=" ++
          (match vget vars "trace_last_roll", vget vars "trace_last_total_weight" with
            | some a, some b =>
              if a ≠ "" && b ≠ "" then ["roll=" ++ a ++ "/" ++ b] else []
            | _, _ => []) ++
          summaryPart vars "trace_last_condition" "cond=" ++
          summaryPart vars "trace_last_branch" "branch=" ++
          (match vget vars "trace_last_var", vget vars "trace_last_var_source" with
            | some a, some b =>
              if a ≠ "" && b ≠ "" then ["var=" ++ a ++ ":" ++ b] else []
            | _, _ => [])
        else [])
      let line := "<<" ++ joinSep " | " (parts.filter (· ≠ "")) ++ ">>"
      line ++ "\n" ++ prompt

/-- `nodes.py` `append_debug_summary`. -/
def appendDebugSummary (prompt : String) (vars : VarMap) : String :=
  match vget vars "debug_summary" with
  | none => prompt
  | some s =>
    if s = "" || ["0", "false", "False"].contains (pyStrip s) then prompt
    else
      let level := summaryLevel (vget vars "debug")
      let parts :=
        ["DBG", "seed=" ++ vgetD vars "debug_seed" "",
          "run=" ++ vgetD vars "debug_run_id" ""] ++
        summaryPart vars "debug_last_type" "type=" ++
        summaryPart vars "debug_last_source" "src=" ++
        summaryPart vars "debug_last_pick" "pick=" ++
        (if level ≥ 2 then
          summaryPart vars "debug_last_count" "count=" ++
          summaryPart vars "debug_row_id" "row_id=" ++
          summaryPart vars "debug_row_index" "row=" ++
          summaryPart vars "debug_yaml_entry" "yaml=" ++
          (match vget vars "debug_last_roll", vget vars "debug_last_total_weight" with
            | some a, some b =>
              if a ≠ "" && b ≠ "" then ["roll=" ++ a ++ "/" ++ b] else []
            | _, _ => [])
        else [])
      let line := "<<" ++ joinSep " | " (parts.filter (· ≠ "")) ++ ">>"
      line ++ "\n" ++ prompt

/-- The time-dependent fragment of `UmiPromptProcessor.process`: during the
run `TagSelector.select` initialises the debug/trace context on the shared
variables dict (lines 1012-1013 call `init_debug_context` then
`init_trace_context`), and after the loop the summary lines are prepended
(lines 2150-2153).  Models a run in which at least one selection happened. -/
def summaryStage (prompt : String) (vars : VarMap) (seed nowMs : Int) : String :=
  let v1 := initDebugContext vars seed nowMs
  let v2 := initTraceContext v1 seed nowMs
  let p1 := if isTraceEnabled v2 then appendTraceSummary prompt v2 else prompt
  if isDebugEnabled v2 then appendDebugSummary p1 v2 else p1

/-! ## The `[clean:]` normalisation
(`shared_utils.py`, `TagReplacerBase.replace_functions._clean`, lines 2028-2038)

```python
def _clean(match):
    content = match.group(1)
    content = re.sub(r'\s+', ' ', content)
    content = re.sub(r',\s*,+', ',', content)
    content = content.replace(' ,', ',')
    content = re.sub(r',\s+', ', ', content)
    return content.strip(', ')
```

Each regex substitution is a left-to-right scanner over the content; the
scanners below implement `re.sub`'s semantics (leftmost non-overlapping
matches, scanning resumes after each match, replacements are not
re-scanned).  The two scanners whose matches skip a whole whitespace run
use fuel (the input length suffices; out of fuel they return the rest
unchanged). -/

/-- `re.sub(r'\s+', ' ', content)`: collapse every whitespace run to one
space. -/
def collapseWs : List Char → List Char
  | [] => []
  | c :: rest =>
    let r := collapseWs rest
    if isPySpace c then
      if r.head? = some ' ' then r else ' ' :: r
    else c :: r

/-- `re.sub(r',\s*,+', ',', content)` (fuel recursion). -/
def subEmptyCommasGo : Nat → List Char → List Char
  | 0, cs => cs
  | _ + 1, [] => []
  | fuel + 1, c :: rest =>
    if c = ',' then
      let rest1 := rest.dropWhile isPySpace
      if rest1.head? = some ',' then
        ',' :: subEmptyCommasGo fuel (rest1.dropWhile (· = ','))
      else ',' :: subEmptyCommasGo fuel rest
    else c :: subEmptyCommasGo fuel rest

def subEmptyCommas (cs : List Char) : List Char :=
  subEmptyCommasGo (cs.length + 1) cs

/-- Python `content.replace(' ,', ',')` (left-to-right, non-overlapping). -/
def replSpaceComma : List Char → List Char
  | [] => []
  | [c] => [c]
  | c :: d :: rest =>
    if c = ' ' && d = ',' then ',' :: replSpaceComma rest
    else c :: replSpaceComma (d :: rest)

/-- `re.sub(r',\s+', ', ', content)` (fuel recursion). -/
def subCommaWsGo : Nat → List Char → List Char
  | 0, cs => cs
  | _ + 1, [] => []
  | fuel + 1, c :: rest =>
    if c = ',' && (rest.head?.elim false isPySpace) then
      ',' :: ' ' :: subCommaWsGo fuel (rest.dropWhile isPySpace)
    else c :: subCommaWsGo fuel rest

def subCommaWs (cs : List Char) : List Char :=
  subCommaWsGo (cs.length + 1) cs

/-- The set of characters stripped by `strip(', ')`. -/
def isCommaSpace (c : Char) : Bool :=
  c = ',' || c = ' '

/-- Python `content.strip(', ')`. -/
def stripCommaSpace (cs : List Char) : List Char :=
  (cs.dropWhile isCommaSpace).rdropWhile isCommaSpace

/-- The `[clean:]` content normalisation `_clean`, on character lists. -/
def cleanList (cs : List Char) : List Char :=
  stripCommaSpace (subCommaWs (replSpaceComma (subEmptyCommas (collapseWs cs))))

/-- The `[clean:]` content normalisation `_clean`. -/
def cleanFn (s : String) : String :=
  ⟨cleanList s.data⟩

/-- `chainOk rel cs`: every pair of adjacent characters satisfies `rel`. -/
def chainOk (rel : Char → Char → Bool) : List Char → Bool
  | a :: b :: rest => rel a b && chainOk rel (b :: rest)
  | _ => true

/-- No two adjacent spaces. -/
def ndRel (a b : Char) : Bool := !(a = ' ' && b = ' ')

/-- No space immediately before a comma. -/
def nscRel (a b : Char) : Bool := !(a = ' ' && b = ',')

/-- No two adjacent commas. -/
def nccRel (a b : Char) : Bool := !(a = ',' && b = ',')

/-- Every whitespace character is a plain space. -/
def spOk (cs : List Char) : Bool :=
  cs.all fun c => !isPySpace c || c = ' '

/-! ## ConditionalReplacer (`shared_utils.py`, lines 1353-1721)

`replace` repeatedly (at most 100 iterations) finds an `[if ...]` block
(pattern `\[if\s+`, case-insensitive), parses it with `parse_conditional`,
evaluates the branch conditions with `LogicEvaluator` against the prompt
with the block removed, applies `$@`-local assignments
(`_apply_local_vars`) to the chosen text and splices it back in. -/

/-- One position of the `\[if\s+` search: `[`, then `if`
case-insensitively, then at least one whitespace character. -/
def ifStartAt : List Char → Bool
  | '[' :: a :: b :: c :: _ =>
      pyLowerChar a == 'i' && pyLowerChar b == 'f' && isPySpace c
  | _ => false

/-- `re.compile(r'\[if\s+', re.IGNORECASE).search(text).start()`. -/
def ifStartSearchGo : List Char → Nat → Option Nat
  | [], _ => none
  | c :: rest, i =>
      if ifStartAt (c :: rest) then some i else ifStartSearchGo rest (i + 1)

/-- `str.rfind(c, 0, stop)`: the largest index `i < stop` holding `c`. -/
def rfindBefore (c : Char) : List Char → Nat → Nat → Option Nat → Option Nat
  | [], _, _, best => best
  | x :: rest, i, stop, best =>
      if i < stop then
        rfindBefore c rest (i + 1) stop (if x == c then some i else best)
      else best

/-- The bracket-matching loop shared by `find_matching_bracket` and the
local `_find_matching` helpers: scanning from index `i` at the given
`depth`, the index of the character that closes the bracket. -/
def fmGo (openC closeC : Char) : List Char → Nat → Nat → Option Nat
  | [], _, _ => none
  | c :: rest, depth, i =>
      let depth' :=
        if c == openC then depth + 1
        else if c == closeC then depth - 1 else depth
      if depth' == 0 then some i else fmGo openC closeC rest depth' (i + 1)

/-- `_find_matching(text, start, open_char, close_char)` (and, at
`'['`/`']'`, `ConditionalReplacer.find_matching_bracket`): `none` is the
source's `-1`. -/
def findMatching (text : List Char) (start : Nat) (openC closeC : Char) :
    Option Nat :=
  fmGo openC closeC (text.drop (start + 1)) 1 (start + 1)

/-- Length of the leading whitespace run (`while ...isspace(): k += 1`). -/
def skipWsCount : List Char → Nat
  | [] => 0
  | c :: rest => if isPySpace c then skipWsCount rest + 1 else 0

/-- Does `\s*:` match at the head of the list?  Returns the colon's
offset (starting from `k`). -/
def tailColonGo : List Char → Nat → Option Nat
  | [], _ => none
  | c :: rest, k =>
      if c == ':' then some k
      else if isPySpace c then tailColonGo rest (k + 1) else none

/-- The lazy group's minimal end: the least position `g` (absolute,
starting from the given index) whose suffix matches `\s*:`; returns
`(g, absolute colon index)`. -/
def findLazyEnd : List Char → Nat → Option (Nat × Nat)
  | [], _ => none
  | c :: rest, g =>
      match tailColonGo (c :: rest) 0 with
      | some k => some (g, g + k)
      | none => findLazyEnd rest (g + 1)

/-- `re.match(r'if\s+(.+?)\s*:\s*', inner, re.IGNORECASE | re.DOTALL)` as
`(condition.strip(), match.end())`.  The engine takes the whitespace run
greedily (length `L`, one required) and the group lazily: with the full
run the group starts at the first non-space `s = 2 + L` and ends at the
least `g ≥ s + 1` whose suffix matches `\s*:`.  When no such `g` exists
the engine backtracks one whitespace character into the group, which
succeeds exactly when `L ≥ 2` and the character at `s` is itself the
colon (the condition then strips to the empty string). -/
def ifMatch (inner : List Char) : Option (String × Nat) :=
  match inner with
  | a :: b :: rest2 =>
      if pyLowerChar a == 'i' && pyLowerChar b == 'f' then
        let L := skipWsCount rest2
        if L == 0 then none
        else
          let s := 2 + L
          match findLazyEnd (inner.drop (s + 1)) (s + 1) with
          | some (g, j) =>
              some (⟨pyStripList ((inner.drop s).take (g - s))⟩,
                j + 1 + skipWsCount (inner.drop (j + 1)))
          | none =>
              if 2 ≤ L && (inner.drop s).head? == some ':' then
                some ("", s + 1 + skipWsCount (inner.drop (s + 1)))
              else none
      else none
  | _ => none

/-- `text[i:i+n].lower() == pat` for a lowercase pattern `pat`. -/
def ciStartsWith : List Char → List Char → Bool
  | [], _ => true
  | _ :: _, [] => false
  | p :: ps, c :: cs => pyLowerChar c == p && ciStartsWith ps cs

def elsePat : List Char := ['e', 'l', 's', 'e', ':']

def elifPat : List Char := ['e', 'l', 'i', 'f']

/-- `i == 0 or rest[i-1].isspace()` with `prev` the previous character. -/
def prevOk : Option Char → Bool
  | none => true
  | some p => isPySpace p

/-- `i == 0 or rest[i-1].isspace()` by index. -/
def prevOkAt (rest : List Char) (i : Nat) : Bool :=
  i == 0 ||
    (match (rest.drop (i - 1)).head? with
     | some p => isPySpace p
     | none => false)

/-- `parse_conditional`'s first separator scan over `rest`: the last
depth-0 `|` position, the `else:` position, and the `has_elif_else` flag
(the loop breaks at the first depth-0 `else:`/`elif` preceded by
whitespace). -/
def sepScan : List Char → Option Char → Int → Int → Option Char →
    Option Nat → Nat → Option Nat × Option Nat × Bool
  | [], _, _, _, _, pipe, _ => (pipe, none, false)
  | c :: rest, prev, db, dbr, q, pipe, i =>
      match q with
      | some qc =>
          if c == qc then sepScan rest (some c) db dbr none pipe (i + 1)
          else sepScan rest (some c) db dbr (some qc) pipe (i + 1)
      | none =>
          if c == '\'' || c == '"' then
            sepScan rest (some c) db dbr (some c) pipe (i + 1)
          else if c == '[' then sepScan rest (some c) (db + 1) dbr none pipe (i + 1)
          else if c == ']' then sepScan rest (some c) (db - 1) dbr none pipe (i + 1)
          else if c == '{' then sepScan rest (some c) db (dbr + 1) none pipe (i + 1)
          else if c == '}' then sepScan rest (some c) db (dbr - 1) none pipe (i + 1)
          else if c == '|' && db == 0 && dbr == 0 then
            sepScan rest (some c) db dbr none (some i) (i + 1)
          else if db == 0 && dbr == 0 && ciStartsWith elsePat (c :: rest) &&
              prevOk prev then
            (pipe, some i, true)
          else if db == 0 && dbr == 0 && ciStartsWith elifPat (c :: rest) &&
              prevOk prev then
            (pipe, none, true)
          else sepScan rest (some c) db dbr none pipe (i + 1)

/-- `_find_colon`'s loop: the first depth-0, unquoted `:` from index `i`. -/
def findColonGo : List Char → Int → Int → Option Char → Nat → Option Nat
  | [], _, _, _, _ => none
  | c :: rest, db, dbr, q, i =>
      match q with
      | some qc =>
          if c == qc then findColonGo rest db dbr none (i + 1)
          else findColonGo rest db dbr (some qc) (i + 1)
      | none =>
          if c == '\'' || c == '"' then findColonGo rest db dbr (some c) (i + 1)
          else if c == '[' then findColonGo rest (db + 1) dbr none (i + 1)
          else if c == ']' then findColonGo rest (db - 1) dbr none (i + 1)
          else if c == '{' then findColonGo rest db (dbr + 1) none (i + 1)
          else if c == '}' then findColonGo rest db (dbr - 1) none (i + 1)
          else if c == ':' && db == 0 && dbr == 0 then some i
          else findColonGo rest db dbr none (i + 1)

/-- `_find_colon(s, start)`. -/
def findColon (s : List Char) (start : Nat) : Option Nat :=
  findColonGo (s.drop start) 0 0 none start

/-- `parse_conditional`'s `elif`-mode splitting loop over `rest`: the
branch list and the else text.  The index jumps past each `elif
condition:` (so the scan is fuelled; the index strictly increases and
`rest.length + 1` steps always suffice). -/
def branchSplit : Nat → List Char → Nat → Nat → String →
    List (String × String) → Int → Int → Option Char →
    Option (List (String × String) × String)
  | 0, _, _, _, _, _, _, _, _ => none
  | f + 1, rest, i, segStart, curCond, branches, db, dbr, q =>
      match rest.drop i with
      | [] =>
          some (branches ++ [(curCond, ⟨pyStripList (rest.drop segStart)⟩)], "")
      | c :: _ =>
          match q with
          | some qc =>
              if c == qc then branchSplit f rest (i + 1) segStart curCond branches db dbr none
              else branchSplit f rest (i + 1) segStart curCond branches db dbr (some qc)
          | none =>
              if c == '\'' || c == '"' then
                branchSplit f rest (i + 1) segStart curCond branches db dbr (some c)
              else if c == '[' then
                branchSplit f rest (i + 1) segStart curCond branches (db + 1) dbr none
              else if c == ']' then
                branchSplit f rest (i + 1) segStart curCond branches (db - 1) dbr none
              else if c == '{' then
                branchSplit f rest (i + 1) segStart curCond branches db (dbr + 1) none
              else if c == '}' then
                branchSplit f rest (i + 1) segStart curCond branches db (dbr - 1) none
              else if db == 0 && dbr == 0 && ciStartsWith elsePat (rest.drop i) &&
                  prevOkAt rest i then
                some (branches ++
                    [(curCond, ⟨pyStripList ((rest.drop segStart).take (i - segStart))⟩)],
                  ⟨pyStripList (rest.drop (i + 5))⟩)
              else if db == 0 && dbr == 0 && ciStartsWith elifPat (rest.drop i) &&
                  prevOkAt rest i then
                let branches' := branches ++
                  [(curCond, ⟨pyStripList ((rest.drop segStart).take (i - segStart))⟩)]
                let condStart := i + 4 + skipWsCount (rest.drop (i + 4))
                match findColon rest condStart with
                | none => none
                | some cp =>
                    branchSplit f rest (cp + 1) (cp + 1)
                      ⟨pyStripList ((rest.drop condStart).take (cp - condStart))⟩
                      branches' db dbr none
              else branchSplit f rest (i + 1) segStart curCond branches db dbr none

/-- `ConditionalReplacer.parse_conditional(text, start)`:
`(start_pos, end_pos, branches, else_text)`. -/
def parseConditional (text : List Char) (start : Nat) :
    Option (Nat × Nat × List (String × String) × String) :=
  match rfindBefore '[' text 0 (start + 4) none with
  | none => none
  | some bs =>
      match findMatching text bs '[' ']' with
      | none => none
      | some e =>
          let inner := (text.drop (bs + 1)).take (e - (bs + 1))
          match ifMatch inner with
          | none => none
          | some (cond, restStart) =>
              let rest := inner.drop restStart
              let (pipe, elsePos, hasEE) := sepScan rest none 0 0 none none 0
              if hasEE then
                match branchSplit (rest.length + 1) rest 0 0 cond [] 0 0 none with
                | none => none
                | some (bsr, et) => some (bs, e + 1, bsr, et)
              else
                match pipe, elsePos with
                | none, none => some (bs, e + 1, [(cond, ⟨pyStripList rest⟩)], "")
                | some p, _ =>
                    some (bs, e + 1, [(cond, ⟨pyStripList (rest.take p)⟩)],
                      ⟨pyStripList (rest.drop (p + 1))⟩)
                | none, some ep =>
                    some (bs, e + 1, [(cond, ⟨pyStripList (rest.take ep)⟩)],
                      ⟨pyStripList (rest.drop (ep + 5))⟩)

/-- The quoted-value scan of `_parse_assignment`/`_parse_local_assignment`:
advance until an unescaped closing quote (returning the index after it) or
the end of the text. -/
def quoteScanGo : List Char → Char → Char → Nat → Nat
  | [], _, _, k => k
  | c :: rest, qc, prev, k =>
      if c == qc && prev != '\\' then k + 1
      else quoteScanGo rest qc c (k + 1)

/-- `str.find('__', start)` over the suffix starting at `start`. -/
def findUnderscore2 : List Char → Nat → Option Nat
  | [], _ => none
  | c :: rest, i =>
      if c == '_' && rest.head? == some '_' then some i
      else findUnderscore2 rest (i + 1)

/-- `str.find(c, start)` over the suffix starting at `start`. -/
def findCharFrom (c : Char) : List Char → Nat → Option Nat
  | [], _ => none
  | x :: rest, i => if x == c then some i else findCharFrom c rest (i + 1)

/-- `ConditionalReplacer._parse_local_assignment(text, idx)`:
`(var_name, raw_value, end index)`.  Python's `isalnum() or '_'` is
`isWordChar` for the ASCII range. -/
def parseLocalAssignment (text : List Char) (idx : Nat) :
    Option (String × String × Nat) :=
  if (text.drop idx).take 2 ≠ ['$', '@'] then none
  else
    let nameCs := (text.drop (idx + 2)).takeWhile isWordChar
    if nameCs = [] then none
    else
      let j := idx + 2 + nameCs.length
      let k1 := j + skipWsCount (text.drop j)
      if (text.drop k1).head? ≠ some '=' then none
      else
        let k2 := k1 + 1 + skipWsCount (text.drop (k1 + 1))
        match (text.drop k2).head? with
        | none => none
        | some vc =>
            let valueEnd :=
              if vc == '{' then
                match findMatching text k2 '{' '}' with
                | some e => e + 1
                | none => k2 + 1
              else if vc == '[' then
                match findMatching text k2 '[' ']' with
                | some e => e + 1
                | none => k2 + 1
              else if vc == '\'' || vc == '"' then
                quoteScanGo (text.drop (k2 + 1)) vc vc (k2 + 1)
              else if (text.drop k2).take 2 = ['_', '_'] then
                match findUnderscore2 (text.drop (k2 + 2)) (k2 + 2) with
                | some e => e + 2
                | none => text.length
              else if vc == '<' then
                match findCharFrom '>' (text.drop (k2 + 1)) (k2 + 1) with
                | some e => e + 1
                | none => text.length
              else
                k2 + ((text.drop k2).takeWhile
                  (fun c => c != ';' && c != '\n')).length
            let rawValue := pyStripList ((text.drop k2).take (valueEnd - k2))
            let valueEnd' :=
              if (text.drop valueEnd).head? == some ';' then valueEnd + 1
              else valueEnd
            some (⟨nameCs⟩, ⟨rawValue⟩, valueEnd')

/-- One `re.sub(pat + r'(?!\w)', value, l)` pass: every non-overlapping
literal occurrence of `pat` not followed by a word character is replaced
by `value`; scanning resumes after each match, so replacements are not
re-scanned.  The replacement is spliced literally (the source's values are
backslash-free, so Python's replacement-template escapes do not arise).
The fuel only guards the degenerate empty pattern; `l.length + 1` steps
always suffice. -/
def subTokGo : Nat → List Char → List Char → List Char → List Char
  | 0, _, _, l => l
  | _ + 1, _, _, [] => []
  | f + 1, pat, value, c :: rest =>
      if pat.isPrefixOf (c :: rest) &&
          !((((c :: rest).drop pat.length).head?).elim false isWordChar) then
        value ++ subTokGo f pat value ((c :: rest).drop pat.length)
      else c :: subTokGo f pat value rest

def subTok (pat value l : List Char) : List Char :=
  subTokGo (l.length + 1) pat value l

/-- `re.search(pat + r'(?!\w)', l)` for a literal `pat`. -/
def hasTok (pat : List Char) : List Char → Bool
  | [] => pat.isEmpty
  | c :: rest =>
      (pat.isPrefixOf (c :: rest) &&
        !((((c :: rest).drop pat.length).head?).elim false isWordChar)) ||
      hasTok pat rest

/-- `_apply_local_vars`' collection loop: the kept output characters, the
`local_vars` dict (insertion order, later assignment overwrites in place)
and the variables map (mutated only by the trace bookkeeping).  The index
strictly increases, so `text.length + 1` fuel always suffices. -/
def alvGo : Nat → List Char → Nat → List Char → VarMap → VarMap →
    List Char × VarMap × VarMap
  | 0, _, _, out, locs, vars => (out, locs, vars)
  | f + 1, text, i, out, locs, vars =>
      match (text.drop i).head? with
      | none => (out, locs, vars)
      | some c =>
          if (text.drop i).take 2 ≠ ['$', '@'] then
            alvGo f text (i + 1) (out ++ [c]) locs vars
          else
            match parseLocalAssignment text i with
            | none => alvGo f text (i + 1) (out ++ [c]) locs vars
            | some (nm, rv, endIdx) =>
                let locs' := vset locs nm rv
                let vars' :=
                  if isTraceEnabled vars then
                    vset (vset vars "trace_last_var" nm)
                      "trace_last_var_source" "local"
                  else vars
                alvGo f text endIdx out locs' vars'

/-- `ConditionalReplacer._apply_local_vars(text, variables)`: strip the
`$@name = value` assignments out of the text, then substitute
`\$@name(?!\w)` for each collected local (in insertion order).  Returns
the cleaned text and the (trace-bookkeeping) variables map. -/
def applyLocalVars (textVal : String) (vars : VarMap) : String × VarMap :=
  let t := textVal.data
  let (out, locs, vars') := alvGo (t.length + 1) t 0 [] [] vars
  let cleaned := locs.foldl
    (fun acc nv => subTok ('$' :: '@' :: nv.1.data) nv.2.data acc) out
  (⟨cleaned⟩, vars')

/-- The branch loop of `ConditionalReplacer.replace`: the first branch (in
order, with its index) whose condition evaluates true against the
context. -/
def findTrueBranch (reS : String → String → Option Bool) (ctx : String)
    (vars : VarMap) : List (String × String) → Nat →
    Option (String × String × Nat)
  | [], _ => none
  | (cnd, tv) :: rest, idx =>
      if evaluate reS cnd vars ctx then some (cnd, tv, idx)
      else findTrueBranch reS ctx vars rest (idx + 1)

/-- The `while iteration < max_iterations` loop of
`ConditionalReplacer.replace`. -/
def condReplaceGo (reS : String → String → Option Bool) :
    Nat → List Char → VarMap → List Char × VarMap
  | 0, p, vars => (p, vars)
  | f + 1, p, vars =>
      match ifStartSearchGo p 0 with
      | none => (p, vars)
      | some ms =>
          match parseConditional p ms with
          | none => (p, vars)
          | some (s, e, branches, elseText) =>
              let context : String := ⟨p.take s ++ p.drop e⟩
              let (replElse, vars1) :=
                if elseText = "" then (elseText, vars)
                else applyLocalVars elseText vars
              match findTrueBranch reS context vars1 branches 0 with
              | none =>
                  condReplaceGo reS f (p.take s ++ replElse.data ++ p.drop e) vars1
              | some (cnd, tv, idx) =>
                  let (r, vars2) := applyLocalVars tv vars1
                  let vars3 :=
                    if isTraceEnabled vars2 then
                      vset (vset vars2 "trace_last_condition" cnd)
                        "trace_last_branch" (toString idx)
                    else vars2
                  condReplaceGo reS f (p.take s ++ r.data ++ p.drop e) vars3

/-- `ConditionalReplacer.replace(prompt, variables)` (`max_iterations`
is 100). -/
def conditionalReplace (prompt : String) (vars : VarMap)
    (reS : String → String → Option Bool) : String × VarMap :=
  let (p, v) := condReplaceGo reS 100 prompt.data vars
  (⟨p⟩, v)

/-! ## VariableReplacer.replace_variables (`shared_utils.py`,
lines 1131-1284)

Resolves variable-to-variable references against the variables map, builds
a temporary updated copy, applies the `${name|fallback}`, `coalesce(...)`
and `$name.method...` substitutions against that copy, and restores the
original map. -/

/-- One pass of the inner `for other_var_name, other_var_value` loop:
substitute `\$other(?!\w)` for every other variable that occurs, tracking
the `changed` flag. -/
def resolveStep (name : String) : List (String × String) → List Char →
    Bool → List Char × Bool
  | [], r, ch => (r, ch)
  | (o, ov) :: rest, r, ch =>
      if o != name && hasTok ('$' :: o.data) r then
        resolveStep name rest (subTok ('$' :: o.data) ov.data r) true
      else resolveStep name rest r ch

/-- The `while '$' in resolved_value and depth < max_depth` loop
(`max_depth = 10`); stops early when a pass changes nothing. -/
def resolveValueGo (vars : VarMap) (name : String) : Nat → List Char →
    List Char
  | 0, r => r
  | d + 1, r =>
      if r.contains '$' then
        match resolveStep name vars r false with
        | (r', true) => resolveValueGo vars name d r'
        | (r', false) => r'
      else r

/-- The `resolved_vars` dict: every variable with its value resolved
against the (unchanged) variables map. -/
def resolvedVarsOf (vars : VarMap) : VarMap :=
  vars.map (fun nv => (nv.1, ⟨resolveValueGo vars nv.1 10 nv.2.data⟩))

/-- `_split_fallbacks(value)`: split on `|` outside quotes, stripping each
part. -/
def splitFallbacksGo : List Char → List Char → Option Char → List String →
    List String
  | [], cur, _, parts => parts ++ [⟨pyStripList cur⟩]
  | c :: rest, cur, q, parts =>
      match q with
      | some qc =>
          if c == qc then splitFallbacksGo rest (cur ++ [c]) none parts
          else splitFallbacksGo rest (cur ++ [c]) (some qc) parts
      | none =>
          if c == '\'' || c == '"' then
            splitFallbacksGo rest (cur ++ [c]) (some c) parts
          else if c == '|' then
            splitFallbacksGo rest [] none (parts ++ [⟨pyStripList cur⟩])
          else splitFallbacksGo rest (cur ++ [c]) none parts

def splitFallbacks (value : List Char) : List String :=
  splitFallbacksGo value [] none []

/-- `_normalize_literal(val)`: strip, then drop one layer of matching
outer quotes. -/
def normalizeLiteral (val : String) : String :=
  let v := pyStripList val.data
  if 2 ≤ v.length && v.head? == v.getLast? &&
      (v.head? == some '\'' || v.head? == some '"') then
    ⟨(v.drop 1).dropLast⟩
  else ⟨v⟩

/-- `_get_value_or_literal(token)` against the temporary variables map. -/
def getValueOrLiteral (tmp : VarMap) (token : String) : String :=
  let t := pyStripList token.data
  if t = [] then ""
  else if t.head? == some '$' then vgetD tmp ⟨t.drop 1⟩ ""
  else normalizeLiteral ⟨t⟩

/-- The shared fallback walk of `_replace_default`/`_replace_coalesce`:
the first candidate whose value is non-blank, else the empty string. -/
def firstNonBlank (tmp : VarMap) : List String → String
  | [] => ""
  | fb :: rest =>
      let v := getValueOrLiteral tmp fb
      if pyStripList v.data = [] then firstNonBlank tmp rest else v

/-- A match of `\$\{([a-zA-Z0-9_]+)\|([^}]*)\}` at the head of the list:
`(name, fallback, match length)`. -/
def matchDefaultAt (l : List Char) : Option (String × String × Nat) :=
  match l with
  | '$' :: '{' :: rest =>
      let nameCs := rest.takeWhile isWordChar
      if nameCs = [] then none
      else
        match rest.drop nameCs.length with
        | '|' :: rest2 =>
            let fb := rest2.takeWhile (fun c => c != '}')
            match rest2.drop fb.length with
            | '}' :: _ =>
                some (⟨nameCs⟩, ⟨fb⟩, 2 + nameCs.length + 1 + fb.length + 1)
            | _ => none
        | _ => none
  | _ => none

/-- `_replace_default(match)`. -/
def replaceDefault (tmp : VarMap) (name fbRaw : String) : String :=
  match vget tmp name with
  | some v =>
      if pyStripList v.data = [] then
        firstNonBlank tmp (splitFallbacks (pyStripList fbRaw.data))
      else v
  | none => firstNonBlank tmp (splitFallbacks (pyStripList fbRaw.data))

/-- `self.default_regex.sub(_replace_default, text)`: non-overlapping
left-to-right matches, scanning resumes after each replacement. -/
def subDefaultGo : Nat → VarMap → List Char → List Char
  | 0, _, l => l
  | _ + 1, _, [] => []
  | f + 1, tmp, c :: rest =>
      match matchDefaultAt (c :: rest) with
      | some (nm, fb, len) =>
          (replaceDefault tmp nm fb).data ++
            subDefaultGo f tmp ((c :: rest).drop len)
      | none => c :: subDefaultGo f tmp rest

def coalescePat : List Char := ['c', 'o', 'a', 'l', 'e', 's', 'c', 'e', '(']

/-- A match of `coalesce\(([^)]+)\)` (case-insensitive) at the head:
`(content, match length)`. -/
def matchCoalesceAt (l : List Char) : Option (String × Nat) :=
  if ciStartsWith coalescePat l then
    let rest := l.drop 9
    let content := rest.takeWhile (fun c => c != ')')
    if content = [] then none
    else
      match rest.drop content.length with
      | ')' :: _ => some (⟨content⟩, 9 + content.length + 1)
      | _ => none
  else none

/-- `_split_args(value)`: split on depth-0 commas outside quotes,
clamping the parenthesis depth at zero; the final part is kept only when
non-blank. -/
def splitArgsGo : List Char → List Char → Option Char → Nat →
    List String → List String
  | [], cur, _, _, parts =>
      if pyStripList cur = [] then parts else parts ++ [⟨pyStripList cur⟩]
  | c :: rest, cur, q, depth, parts =>
      match q with
      | some qc =>
          if c == qc then splitArgsGo rest (cur ++ [c]) none depth parts
          else splitArgsGo rest (cur ++ [c]) (some qc) depth parts
      | none =>
          if c == '\'' || c == '"' then
            splitArgsGo rest (cur ++ [c]) (some c) depth parts
          else if c == '(' then splitArgsGo rest (cur ++ [c]) none (depth + 1) parts
          else if c == ')' then splitArgsGo rest (cur ++ [c]) none (depth - 1) parts
          else if c == ',' && depth == 0 then
            splitArgsGo rest [] none depth (parts ++ [⟨pyStripList cur⟩])
          else splitArgsGo rest (cur ++ [c]) none depth parts

/-- `_replace_coalesce(match)`. -/
def replaceCoalesce (tmp : VarMap) (content : String) : String :=
  firstNonBlank tmp (splitArgsGo content.data [] none 0 [])

/-- `self.coalesce_regex.sub(_replace_coalesce, ...)`. -/
def subCoalesceGo : Nat → VarMap → List Char → List Char
  | 0, _, l => l
  | _ + 1, _, [] => []
  | f + 1, tmp, c :: rest =>
      match matchCoalesceAt (c :: rest) with
      | some (ct, len) =>
          (replaceCoalesce tmp ct).data ++ subCoalesceGo f tmp ((c :: rest).drop len)
      | none => c :: subCoalesceGo f tmp rest

/-- The `((?:\.[a-zA-Z_]+)*)` group: greedy repetition of `.` followed by
letters/underscores. -/
def methodsScanGo : Nat → List Char → List Char
  | 0, _ => []
  | f + 1, l =>
      match l with
      | '.' :: rest =>
          let m := rest.takeWhile (fun c => c.isAlpha || c == '_')
          if m = [] then []
          else ('.' :: m) ++ methodsScanGo f (rest.drop m.length)
      | _ => []

/-- A match of `\$([a-zA-Z0-9_]+)((?:\.[a-zA-Z_]+)*)` at the head:
`(name, methods string, match length)`. -/
def matchUseAt (l : List Char) : Option (String × List Char × Nat) :=
  match l with
  | '$' :: rest =>
      let nameCs := rest.takeWhile isWordChar
      if nameCs = [] then none
      else
        let ms := methodsScanGo ((rest.drop nameCs.length).length + 1)
          (rest.drop nameCs.length)
        some (⟨nameCs⟩, ms, 1 + nameCs.length + ms.length)
  | _ => none

/-- Python `str.title()` for the ASCII range: the first letter of every
letter run is uppercased, the rest lowercased. -/
def pyTitleGo : Bool → List Char → List Char
  | _, [] => []
  | prevAlpha, c :: rest =>
      if c.isAlpha then
        (if prevAlpha then pyLowerChar c else pyUpperChar c) ::
          pyTitleGo true rest
      else c :: pyTitleGo false rest

/-- Python `str.capitalize()` for the ASCII range. -/
def pyCapitalize (s : String) : String :=
  match s.data with
  | [] => ""
  | c :: rest => ⟨pyUpperChar c :: rest.map pyLowerChar⟩

/-- One string method of `_replace_use` (`.clean` is the two single
character `str.replace` calls, i.e. a character map); unknown methods are
no-ops. -/
def applyMethod (value : String) (m : String) : String :=
  if m = "clean" then
    ⟨value.data.map (fun c => if c == '_' || c == '-' then ' ' else c)⟩
  else if m = "upper" then pyUpper value
  else if m = "lower" then pyLower value
  else if m = "title" then ⟨pyTitleGo false value.data⟩
  else if m = "capitalize" then pyCapitalize value
  else value

/-- `str.split(c)`. -/
def splitCharGo (sep : Char) : List Char → List Char → List String
  | [], cur => [⟨cur.reverse⟩]
  | c :: rest, cur =>
      if c == sep then ⟨cur.reverse⟩ :: splitCharGo sep rest []
      else splitCharGo sep rest (c :: cur)

/-- `_replace_use(match)`: a missing variable leaves the matched text
unchanged; otherwise the chained methods are applied. -/
def replaceUse (tmp : VarMap) (name : String) (methodsStr : List Char)
    (whole : List Char) : List Char :=
  match vget tmp name with
  | none => whole
  | some v =>
      if methodsStr = [] then v.data
      else
        let methods := (splitCharGo '.' methodsStr []).drop 1
        (methods.foldl applyMethod v).data

/-- `self.use_regex.sub(_replace_use, ...)`. -/
def subUseGo : Nat → VarMap → List Char → List Char
  | 0, _, l => l
  | _ + 1, _, [] => []
  | f + 1, tmp, c :: rest =>
      match matchUseAt (c :: rest) with
      | some (nm, ms, len) =>
          replaceUse tmp nm ms ((c :: rest).take len) ++
            subUseGo f tmp ((c :: rest).drop len)
      | none => c :: subUseGo f tmp rest

/-- `VariableReplacer.replace_variables(text)` as a function of the
stored variables map: the resolved text together with the variables map
stored after the call (`original_vars`, the pre-call copy, is restored at
the end). -/
def replaceVariables (text : String) (vars : VarMap) : String × VarMap :=
  let originalVars := vars
  let tmp := vupdate vars (resolvedVarsOf vars)
  let r1 := subDefaultGo (text.data.length + 1) tmp text.data
  let r2 := subCoalesceGo (r1.length + 1) tmp r1
  let r3 := subUseGo (r2.length + 1) tmp r2
  (⟨r3⟩, originalVars)


/-! ### Lemmas about the counter map -/

theorem tcGet_tcSet_self (m : TagCounts) (k : String) (v : Nat) :
    tcGet (tcSet m k v) k = some v := by
  induction m with
  | nil => simp [tcSet, tcGet]
  | cons hd tl ih =>
    obtain ⟨k', v'⟩ := hd
    by_cases h : k' = k <;> simp [tcSet, tcGet, h, ih]

theorem tcGet_tcSet_ne (m : TagCounts) (k : String) (v : Nat) (o : String)
    (h : o ≠ k) : tcGet (tcSet m k v) o = tcGet m o := by
  induction m with
  | nil => simp [tcSet, tcGet, Ne.symm h]
  | cons hd tl ih =>
    obtain ⟨k', v'⟩ := hd
    by_cases hk : k' = k
    · subst hk
      simp [tcSet, tcGet, Ne.symm h]
    · by_cases ho : k' = o <;> simp [tcSet, tcGet, hk, ho, ih, h]

theorem tcGet_append (m m' : TagCounts) (o : String) :
    tcGet (m ++ m') o =
      (match tcGet m o with
        | some v => some v
        | none => tcGet m' o) := by
  induction m with
  | nil => simp [tcGet]
  | cons hd tl ih =>
    obtain ⟨k', v'⟩ := hd
    by_cases h : k' = o <;> simp [tcGet, h, ih]

theorem tcGet_tcSetdefault_ne (m : TagCounts) (k : String) (v : Nat)
    (o : String) (h : o ≠ k) : tcGet (tcSetdefault m k v) o = tcGet m o := by
  unfold tcSetdefault
  by_cases hm : (tcGet m k).isSome
  · simp [hm]
  · simp only [hm, if_false, Bool.false_eq_true, tcGet_append]
    cases hg : tcGet m o <;> simp [tcGet, Ne.symm h]

theorem tcGet_tcSetdefault_self (m : TagCounts) (k : String) (v : Nat) :
    tcGet (tcSetdefault m k v) k = some ((tcGet m k).getD v) := by
  unfold tcSetdefault
  cases hg : tcGet m k with
  | some x => simp [hg]
  | none => simp [hg, tcGet_append, tcGet]

theorem selectLoopGuardIter_single (tag : String) (n k : Nat)
    (h : k + n ≤ 501) :
    selectLoopGuardIter tag n [(tag, k)] = [(tag, k + n)] := by
  induction n generalizing k with
  | zero => simp [selectLoopGuardIter]
  | succ n ih =>
    have hk : k ≤ 500 := by omega
    have hguard : selectLoopGuard [(tag, k)] tag = (none, [(tag, k + 1)]) := by
      simp [selectLoopGuard, tcSetdefault, tcGet, tcSet, vmem, Nat.not_lt.mpr hk]
    rw [selectLoopGuardIter, hguard]
    have := ih (k + 1) (by omega)
    simpa [Nat.add_comm, Nat.add_assoc, Nat.add_left_comm] using this

/-! ### Lemmas about chains of adjacent characters -/

theorem chainOk_cons (rel : Char → Char → Bool) (a : Char) (l : List Char) :
    chainOk rel (a :: l) =
      ((match l.head? with | some b => rel a b | none => true) && chainOk rel l) := by
  cases l <;> simp [chainOk]

theorem chainOk_tail {rel : Char → Char → Bool} {a : Char} {l : List Char}
    (h : chainOk rel (a :: l) = true) : chainOk rel l = true := by
  cases l with
  | nil => simp [chainOk]
  | cons b rest =>
    simp only [chainOk, Bool.and_eq_true] at h
    exact h.2

theorem chainOk_dropWhile {rel : Char → Char → Bool} (p : Char → Bool)
    {l : List Char} (h : chainOk rel l = true) :
    chainOk rel (l.dropWhile p) = true := by
  induction l with
  | nil => simpa using h
  | cons c rest ih =>
    rw [List.dropWhile_cons]
    by_cases hc : p c = true
    · simp only [hc, if_true]
      exact ih (chainOk_tail h)
    · simp only [hc]
      simpa using h

theorem chainOk_append_left {rel : Char → Char → Bool} {l t : List Char}
    (h : chainOk rel (l ++ t) = true) : chainOk rel l = true := by
  induction l with
  | nil => simp [chainOk]
  | cons a l ih =>
    cases l with
    | nil => simp [chainOk]
    | cons b l' =>
      simp only [List.cons_append, chainOk, Bool.and_eq_true] at h ⊢
      exact ⟨h.1, by simpa [chainOk] using ih (by simpa [chainOk] using h.2)⟩

theorem chainOk_prefix {rel : Char → Char → Bool} {l₁ l₂ : List Char}
    (hp : l₁ <+: l₂) (h : chainOk rel l₂ = true) : chainOk rel l₁ = true := by
  obtain ⟨t, rfl⟩ := hp
  exact chainOk_append_left h

theorem spOk_sublist {l₁ l₂ : List Char} (hs : List.Sublist l₁ l₂)
    (h : spOk l₂ = true) : spOk l₁ = true := by
  simp only [spOk, List.all_eq_true] at h ⊢
  exact fun c hc => h c (hs.subset hc)

theorem dropWhile_head_not {p : Char → Bool} {l : List Char} {x : Char}
    (h : (l.dropWhile p).head? = some x) : p x = false := by
  induction l with
  | nil => simp at h
  | cons c rest ih =>
    rw [List.dropWhile_cons] at h
    by_cases hc : p c = true
    · rw [if_pos hc] at h
      exact ih h
    · rw [if_neg hc] at h
      simp only [List.head?_cons, Option.some.injEq] at h
      subst h
      simpa using hc

/-! ### Head preservation of the clean scanners -/

theorem subEmptyCommasGo_head (f : Nat) (cs : List Char) :
    (subEmptyCommasGo f cs).head? = cs.head? := by
  match f, cs with
  | 0, cs => rfl
  | _ + 1, [] => rfl
  | fuel + 1, c :: rest =>
    simp only [subEmptyCommasGo]
    by_cases hc : c = ','
    · subst hc
      by_cases hm : ((rest.dropWhile isPySpace).head? = some ',') <;> simp [hm]
    · simp [hc]

theorem subCommaWsGo_head (f : Nat) (cs : List Char) :
    (subCommaWsGo f cs).head? = cs.head? := by
  match f, cs with
  | 0, cs => rfl
  | _ + 1, [] => rfl
  | fuel + 1, c :: rest =>
    simp only [subCommaWsGo]
    by_cases hc : c = ','
    · subst hc
      by_cases hd : rest.head?.elim false isPySpace = true <;> simp [hd]
    · simp [hc]

theorem replSpaceComma_head (l : List Char) (hl : l ≠ []) :
    (replSpaceComma l).head? =
      (if l.head? = some ' ' ∧ l.tail.head? = some ',' then some ','
        else l.head?) := by
  match l with
  | [c] =>
    simp [replSpaceComma]
  | c :: d :: rest =>
    by_cases h : (c = ' ' && d = ',') = true
    · have hc : c = ' ' := by
        have := (Bool.and_eq_true _ _).mp h
        simpa using this.1
      have hd : d = ',' := by
        have := (Bool.and_eq_true _ _).mp h
        simpa using this.2
      subst hc; subst hd
      simp [replSpaceComma]
    · have : ¬(c = ' ' ∧ d = ',') := by
        intro hcd
        exact h (by simp [hcd.1, hcd.2])
      simp [replSpaceComma, h, this]

theorem chainOk_cons_iff (rel : Char → Char → Bool) (a : Char) (l : List Char) :
    chainOk rel (a :: l) = true ↔
      ((∀ b, l.head? = some b → rel a b = true) ∧ chainOk rel l = true) := by
  cases l <;> simp [chainOk]

/-! ### Invariants established and preserved by the clean stages -/

theorem collapseWs_spOk (cs : List Char) : spOk (collapseWs cs) = true := by
  induction cs with
  | nil => simp [collapseWs, spOk]
  | cons c rest ih =>
    simp only [collapseWs]
    by_cases hc : isPySpace c = true
    · rw [if_pos hc]
      by_cases hh : (collapseWs rest).head? = some ' '
      · rw [if_pos hh]; exact ih
      · rw [if_neg hh]
        simp only [spOk, List.all_cons, Bool.and_eq_true]
        exact ⟨by decide, by simpa [spOk] using ih⟩
    · rw [if_neg hc]
      simp only [spOk, List.all_cons, Bool.and_eq_true]
      refine ⟨?_, by simpa [spOk] using ih⟩
      simp [Bool.not_eq_true] at hc
      simp [hc]

theorem collapseWs_nd (cs : List Char) : chainOk ndRel (collapseWs cs) = true := by
  induction cs with
  | nil => simp [collapseWs, chainOk]
  | cons c rest ih =>
    simp only [collapseWs]
    by_cases hc : isPySpace c = true
    · rw [if_pos hc]
      by_cases hh : (collapseWs rest).head? = some ' '
      · rw [if_pos hh]; exact ih
      · rw [if_neg hh]
        rw [chainOk_cons_iff]
        refine ⟨?_, ih⟩
        intro b hb
        have : b ≠ ' ' := by
          intro hb'
          exact hh (hb' ▸ hb)
        simp [ndRel, this]
    · rw [if_neg hc]
      rw [chainOk_cons_iff]
      refine ⟨?_, ih⟩
      intro b _
      have : c ≠ ' ' := by
        intro h'
        exact hc (by simp [h', isPySpace])
      simp [ndRel, this]

theorem subEmptyCommasGo_chain {rel : Char → Char → Bool}
    (hrel : ∀ b, rel ',' b = true) :
    ∀ (f : Nat) (cs : List Char), chainOk rel cs = true →
      chainOk rel (subEmptyCommasGo f cs) = true := by
  intro f
  induction f with
  | zero => intro cs h; simpa [subEmptyCommasGo] using h
  | succ fuel ih =>
    intro cs h
    match cs with
    | [] => simp [subEmptyCommasGo, chainOk]
    | c :: rest =>
      simp only [subEmptyCommasGo]
      by_cases hc : c = ','
      · subst hc
        rw [if_pos rfl]
        by_cases hm : (rest.dropWhile isPySpace).head? = some ','
        · rw [if_pos hm, chainOk_cons_iff]
          exact ⟨fun b _ => hrel b,
            ih _ (chainOk_dropWhile _ (chainOk_dropWhile _ (chainOk_tail h)))⟩
        · rw [if_neg hm, chainOk_cons_iff]
          exact ⟨fun b _ => hrel b, ih _ (chainOk_tail h)⟩
      · rw [if_neg hc, chainOk_cons_iff]
        refine ⟨?_, ih _ (chainOk_tail h)⟩
        intro b hb
        rw [subEmptyCommasGo_head] at hb
        exact ((chainOk_cons_iff rel c rest).mp h).1 b hb

theorem subEmptyCommasGo_spOk :
    ∀ (f : Nat) (cs : List Char), spOk cs = true →
      spOk (subEmptyCommasGo f cs) = true := by
  intro f
  induction f with
  | zero => intro cs h; simpa [subEmptyCommasGo] using h
  | succ fuel ih =>
    intro cs h
    match cs with
    | [] => simp [subEmptyCommasGo, spOk]
    | c :: rest =>
      have hrest : spOk rest = true := spOk_sublist (List.sublist_cons_self c rest) h
      simp only [subEmptyCommasGo]
      by_cases hc : c = ','
      · subst hc
        rw [if_pos rfl]
        by_cases hm : (rest.dropWhile isPySpace).head? = some ','
        · rw [if_pos hm]
          simp only [spOk, List.all_cons, Bool.and_eq_true]
          refine ⟨by decide, ?_⟩
          have : spOk ((rest.dropWhile isPySpace).dropWhile (· = ',')) = true :=
            spOk_sublist ((List.dropWhile_sublist _).trans (List.dropWhile_sublist _)) hrest
          simpa [spOk] using ih _ this
        · rw [if_neg hm]
          simp only [spOk, List.all_cons, Bool.and_eq_true]
          exact ⟨by decide, by simpa [spOk] using ih _ hrest⟩
      · rw [if_neg hc]
        simp only [spOk, List.all_cons, Bool.and_eq_true] at h ⊢
        exact ⟨h.1, by simpa [spOk] using ih _ (by simpa [spOk] using h.2)⟩

theorem replSpaceComma_nd :
    ∀ cs : List Char, chainOk ndRel cs = true →
      chainOk ndRel (replSpaceComma cs) = true := by
  intro cs
  induction cs using replSpaceComma.induct with
  | case1 => intro h; simpa [replSpaceComma] using h
  | case2 c => intro h; simpa [replSpaceComma] using h
  | case3 c d rest hcd ih =>
    intro h
    simp only [replSpaceComma, if_pos hcd]
    rw [chainOk_cons_iff]
    refine ⟨fun b _ => by simp [ndRel], ih (chainOk_tail (chainOk_tail h))⟩
  | case4 c d rest hcd ih =>
    intro h
    simp only [replSpaceComma, if_neg hcd]
    rw [chainOk_cons_iff]
    refine ⟨?_, ih (chainOk_tail h)⟩
    intro b hb
    rw [replSpaceComma_head (d :: rest) (by simp)] at hb
    by_cases hsp : (d :: rest).head? = some ' ' ∧ (d :: rest).tail.head? = some ','
    · rw [if_pos hsp] at hb
      have hd : d = ' ' := by simpa using hsp.1
      have hcd' : ndRel c d = true :=
        ((chainOk_cons_iff _ c (d :: rest)).mp h).1 d (by simp)
      have hc : c ≠ ' ' := by
        intro h'
        rw [h', hd] at hcd'
        simp [ndRel] at hcd'
      have hb' : b = ',' := by
        have := hb
        simp only [Option.some.injEq] at this
        exact this.symm
      simp [ndRel, hb', hc]
    · rw [if_neg hsp] at hb
      exact ((chainOk_cons_iff _ c (d :: rest)).mp h).1 b (by simpa using hb)

theorem replSpaceComma_nsc :
    ∀ cs : List Char, chainOk ndRel cs = true →
      chainOk nscRel (replSpaceComma cs) = true := by
  intro cs
  induction cs using replSpaceComma.induct with
  | case1 => intro h; simp [replSpaceComma, chainOk]
  | case2 c => intro h; simp [replSpaceComma, chainOk]
  | case3 c d rest hcd ih =>
    intro h
    simp only [replSpaceComma, if_pos hcd]
    rw [chainOk_cons_iff]
    refine ⟨fun b _ => by simp [nscRel], ih (chainOk_tail (chainOk_tail h))⟩
  | case4 c d rest hcd ih =>
    intro h
    simp only [replSpaceComma, if_neg hcd]
    rw [chainOk_cons_iff]
    refine ⟨?_, ih (chainOk_tail h)⟩
    intro b hb
    rw [replSpaceComma_head (d :: rest) (by simp)] at hb
    by_cases hsp : (d :: rest).head? = some ' ' ∧ (d :: rest).tail.head? = some ','
    · rw [if_pos hsp] at hb
      have hd : d = ' ' := by simpa using hsp.1
      have hcd' : ndRel c d = true :=
        ((chainOk_cons_iff _ c (d :: rest)).mp h).1 d (by simp)
      have hc : c ≠ ' ' := by
        intro h'
        rw [h', hd] at hcd'
        simp [ndRel] at hcd'
      simp [nscRel, hc]
    · rw [if_neg hsp] at hb
      have hb' : d = b := by simpa using hb
      subst hb'
      -- here ¬(c = ' ' ∧ d = ','), which is exactly nscRel c d
      have : ¬(c = ' ' ∧ d = ',') := by
        intro hx
        exact hcd (by simp [hx.1, hx.2])
      simp only [nscRel, Bool.not_eq_true']
      by_cases h1 : c = ' ' <;> by_cases h2 : d = ',' <;>
        simp_all

theorem replSpaceComma_spOk :
    ∀ cs : List Char, spOk cs = true → spOk (replSpaceComma cs) = true := by
  intro cs
  induction cs using replSpaceComma.induct with
  | case1 => intro h; simpa [replSpaceComma] using h
  | case2 c => intro h; simpa [replSpaceComma] using h
  | case3 c d rest hcd ih =>
    intro h
    simp only [replSpaceComma, if_pos hcd]
    simp only [spOk, List.all_cons, Bool.and_eq_true] at h ⊢
    exact ⟨by decide, by simpa [spOk] using ih (by simpa [spOk] using h.2.2)⟩
  | case4 c d rest hcd ih =>
    intro h
    simp only [replSpaceComma, if_neg hcd]
    have h2 : spOk (d :: rest) = true := spOk_sublist (List.sublist_cons_self c _) h
    have h3 := ih h2
    simp only [spOk, List.all_cons, Bool.and_eq_true] at h ⊢
    exact ⟨h.1, by simpa [spOk] using h3⟩

/-- After a whitespace character, the first non-whitespace character cannot
be a comma when the list has no space-before-comma pair and all whitespace
is plain spaces. -/
theorem nsc_dropWhile_space_head :
    ∀ (l : List Char) (x : Char), chainOk nscRel l = true → spOk l = true →
      (∃ h0, l.head? = some h0 ∧ isPySpace h0 = true) →
      (l.dropWhile isPySpace).head? = some x → x ≠ ',' := by
  intro l
  induction l with
  | nil => intro x _ _ hex hx; simp at hex
  | cons c rest ih =>
    intro x hch hsp hex hx
    obtain ⟨h0, hh0, h0sp⟩ := hex
    have hc0 : c = h0 := by simpa using hh0
    subst hc0
    have hcsp : c = ' ' := by
      simp only [spOk, List.all_cons, Bool.and_eq_true] at hsp
      have := hsp.1
      rw [h0sp] at this
      simpa using this
    rw [List.dropWhile_cons, if_pos h0sp] at hx
    cases hr : rest with
    | nil => rw [hr] at hx; simp at hx
    | cons d rest' =>
      subst hr
      by_cases hd : isPySpace d = true
      · exact ih x (chainOk_tail hch)
          (spOk_sublist (List.sublist_cons_self c _) hsp)
          ⟨d, by simp, hd⟩ hx
      · rw [List.dropWhile_cons, if_neg hd] at hx
        have hxd : d = x := by simpa using hx
        have hch' := ((chainOk_cons_iff _ c (d :: rest')).mp hch).1 d (by simp)
        intro hx'
        rw [hxd, hx'] at hch'
        rw [hcsp] at hch'
        simp [nscRel] at hch'

theorem subCommaWsGo_nd :
    ∀ (f : Nat) (cs : List Char), chainOk ndRel cs = true →
      chainOk ndRel (subCommaWsGo f cs) = true := by
  intro f
  induction f with
  | zero => intro cs h; simpa [subCommaWsGo] using h
  | succ fuel ih =>
    intro cs h
    match cs with
    | [] => simp [subCommaWsGo, chainOk]
    | c :: rest =>
      simp only [subCommaWsGo]
      by_cases hcond : (c = ',' && rest.head?.elim false isPySpace) = true
      · rw [if_pos hcond]
        rw [chainOk_cons_iff]
        refine ⟨fun b _ => by simp [ndRel], ?_⟩
        rw [chainOk_cons_iff]
        refine ⟨?_, ih _ (chainOk_dropWhile _ (chainOk_tail h))⟩
        intro b hb
        rw [subCommaWsGo_head] at hb
        have : isPySpace b = false := dropWhile_head_not hb
        have hb' : b ≠ ' ' := by
          intro h'
          rw [h'] at this
          simp [isPySpace] at this
        simp [ndRel, hb']
      · rw [if_neg hcond]
        rw [chainOk_cons_iff]
        refine ⟨?_, ih _ (chainOk_tail h)⟩
        intro b hb
        rw [subCommaWsGo_head] at hb
        exact ((chainOk_cons_iff _ c rest).mp h).1 b hb

theorem subCommaWsGo_nsc :
    ∀ (f : Nat) (cs : List Char), chainOk nscRel cs = true → spOk cs = true →
      chainOk nscRel (subCommaWsGo f cs) = true := by
  intro f
  induction f with
  | zero => intro cs h _; simpa [subCommaWsGo] using h
  | succ fuel ih =>
    intro cs h hsp
    match cs with
    | [] => simp [subCommaWsGo, chainOk]
    | c :: rest =>
      have hsprest : spOk rest = true := spOk_sublist (List.sublist_cons_self c _) hsp
      simp only [subCommaWsGo]
      by_cases hcond : (c = ',' && rest.head?.elim false isPySpace) = true
      · rw [if_pos hcond]
        have hd : ∃ d, rest.head? = some d ∧ isPySpace d = true := by
          rcases Bool.and_eq_true _ _ |>.mp hcond with ⟨_, h2⟩
          cases hr : rest.head? with
          | none => rw [hr] at h2; simp at h2
          | some d => exact ⟨d, rfl, by rw [hr] at h2; simpa using h2⟩
        rw [chainOk_cons_iff]
        refine ⟨fun b _ => by simp [nscRel], ?_⟩
        rw [chainOk_cons_iff]
        refine ⟨?_, ih _ (chainOk_dropWhile _ (chainOk_tail h))
          (spOk_sublist (List.dropWhile_sublist _) hsprest)⟩
        intro b hb
        rw [subCommaWsGo_head] at hb
        have : b ≠ ',' :=
          nsc_dropWhile_space_head rest b (chainOk_tail h) hsprest hd hb
        simp [nscRel, this]
      · rw [if_neg hcond]
        rw [chainOk_cons_iff]
        refine ⟨?_, ih _ (chainOk_tail h) hsprest⟩
        intro b hb
        rw [subCommaWsGo_head] at hb
        exact ((chainOk_cons_iff _ c rest).mp h).1 b hb

theorem subCommaWsGo_spOk :
    ∀ (f : Nat) (cs : List Char), spOk cs = true →
      spOk (subCommaWsGo f cs) = true := by
  intro f
  induction f with
  | zero => intro cs h; simpa [subCommaWsGo] using h
  | succ fuel ih =>
    intro cs h
    match cs with
    | [] => simp [subCommaWsGo, spOk]
    | c :: rest =>
      have hrest : spOk rest = true := spOk_sublist (List.sublist_cons_self c _) h
      simp only [subCommaWsGo]
      by_cases hcond : (c = ',' && rest.head?.elim false isPySpace) = true
      · rw [if_pos hcond]
        simp only [spOk, List.all_cons, Bool.and_eq_true]
        refine ⟨by decide, by decide, ?_⟩
        simpa [spOk] using ih _ (spOk_sublist (List.dropWhile_sublist _) hrest)
      · rw [if_neg hcond]
        simp only [spOk, List.all_cons, Bool.and_eq_true] at h ⊢
        exact ⟨h.1, by simpa [spOk] using ih _ hrest⟩

/-! ### The clean stages leave an already-normalised string unchanged -/

theorem collapseWs_id (cs : List Char) (hsp : spOk cs = true)
    (hnd : chainOk ndRel cs = true) : collapseWs cs = cs := by
  induction cs with
  | nil => simp [collapseWs]
  | cons c rest ih =>
    have ihr : collapseWs rest = rest :=
      ih (spOk_sublist (List.sublist_cons_self c _) hsp) (chainOk_tail hnd)
    simp only [collapseWs, ihr]
    by_cases hc : isPySpace c = true
    · rw [if_pos hc]
      have hcsp : c = ' ' := by
        simp only [spOk, List.all_cons, Bool.and_eq_true] at hsp
        have := hsp.1
        rw [hc] at this
        simpa using this
      have hh : rest.head? ≠ some ' ' := by
        intro hh
        cases rest with
        | nil => simp at hh
        | cons d rest' =>
          have hd : d = ' ' := by simpa using hh
          have := ((chainOk_cons_iff _ c (d :: rest')).mp hnd).1 d (by simp)
          rw [hcsp, hd] at this
          simp [ndRel] at this
      rw [if_neg hh, hcsp]
    · rw [if_neg hc]

theorem subEmptyCommasGo_id :
    ∀ (f : Nat) (cs : List Char), spOk cs = true → chainOk ndRel cs = true →
      chainOk nscRel cs = true → chainOk nccRel cs = true →
      subEmptyCommasGo f cs = cs := by
  intro f
  induction f with
  | zero => intro cs _ _ _ _; rfl
  | succ fuel ih =>
    intro cs hsp hnd hnsc hncc
    match cs with
    | [] => rfl
    | c :: rest =>
      have htails : spOk rest = true := spOk_sublist (List.sublist_cons_self c _) hsp
      have ihr : subEmptyCommasGo fuel rest = rest :=
        ih rest htails (chainOk_tail hnd) (chainOk_tail hnsc) (chainOk_tail hncc)
      simp only [subEmptyCommasGo]
      by_cases hc : c = ','
      · subst hc
        rw [if_pos rfl]
        have hm : (rest.dropWhile isPySpace).head? ≠ some ',' := by
          intro hm
          cases rest with
          | nil => simp at hm
          | cons d rest' =>
            by_cases hd : isPySpace d = true
            · exact nsc_dropWhile_space_head (d :: rest') ','
                (chainOk_tail hnsc) htails ⟨d, by simp, hd⟩ hm rfl
            · rw [List.dropWhile_cons, if_neg hd] at hm
              have hd' : d = ',' := by simpa using hm
              have := ((chainOk_cons_iff _ ',' (d :: rest')).mp hncc).1 d (by simp)
              rw [hd'] at this
              simp [nccRel] at this
        rw [if_neg hm, ihr]
      · rw [if_neg hc, ihr]

theorem replSpaceComma_id :
    ∀ cs : List Char, chainOk nscRel cs = true → replSpaceComma cs = cs := by
  intro cs
  induction cs using replSpaceComma.induct with
  | case1 => intro _; rfl
  | case2 c => intro _; rfl
  | case3 c d rest hcd ih =>
    intro h
    have hc : c = ' ' := by
      have := (Bool.and_eq_true _ _).mp hcd
      simpa using this.1
    have hd : d = ',' := by
      have := (Bool.and_eq_true _ _).mp hcd
      simpa using this.2
    have := ((chainOk_cons_iff _ c (d :: rest)).mp h).1 d (by simp)
    rw [hc, hd] at this
    simp [nscRel] at this
  | case4 c d rest hcd ih =>
    intro h
    simp only [replSpaceComma, if_neg hcd]
    rw [ih (chainOk_tail h)]

theorem subCommaWsGo_id :
    ∀ (f : Nat) (cs : List Char), spOk cs = true → chainOk ndRel cs = true →
      subCommaWsGo f cs = cs := by
  intro f
  induction f with
  | zero => intro cs _ _; rfl
  | succ fuel ih =>
    intro cs hsp hnd
    match cs with
    | [] => rfl
    | c :: rest =>
      have htails : spOk rest = true := spOk_sublist (List.sublist_cons_self c _) hsp
      simp only [subCommaWsGo]
      by_cases hcond : (c = ',' && rest.head?.elim false isPySpace) = true
      · rw [if_pos hcond]
        obtain ⟨hc, hrest⟩ := (Bool.and_eq_true _ _).mp hcond
        have hc' : c = ',' := by simpa using hc
        cases rest with
        | nil => simp at hrest
        | cons d rest' =>
          have hd : isPySpace d = true := by simpa using hrest
          have hd' : d = ' ' := by
            simp only [spOk, List.all_cons, Bool.and_eq_true] at htails
            have := htails.1
            rw [hd] at this
            simpa using this
          have hdrop : (d :: rest').dropWhile isPySpace = rest' := by
            rw [List.dropWhile_cons, if_pos hd]
            cases rest' with
            | nil => rfl
            | cons e rest'' =>
              have he : e ≠ ' ' := by
                intro he
                have := ((chainOk_cons_iff _ d (e :: rest'')).mp
                  (chainOk_tail hnd)).1 e (by simp)
                rw [hd', he] at this
                simp [ndRel] at this
              have he' : isPySpace e = false := by
                by_contra hx
                simp only [Bool.not_eq_false] at hx
                apply he
                have hsp'' : spOk (e :: rest'') = true :=
                  spOk_sublist (List.sublist_cons_self d _) htails
                simp only [spOk, List.all_cons, Bool.and_eq_true] at hsp''
                have := hsp''.1
                rw [hx] at this
                simpa using this
              rw [List.dropWhile_cons, if_neg (by simp [he'])]
          rw [hdrop]
          have ihr : subCommaWsGo fuel rest' = rest' :=
            ih rest' (spOk_sublist (List.sublist_cons_self d _) htails)
              (chainOk_tail (chainOk_tail hnd))
          rw [ihr, hc', hd']
      · rw [if_neg hcond]
        rw [ih rest htails (chainOk_tail hnd)]

theorem dropWhile_eq_self_of_prefix {p : Char → Bool} {a b : List Char}
    (hp : a <+: b) (hb : b.dropWhile p = b) : a.dropWhile p = a := by
  cases a with
  | nil => simp
  | cons x a' =>
    obtain ⟨t, ht⟩ := hp
    cases b with
    | nil => simp at ht
    | cons y b' =>
      have hxy : x = y := by
        have := congrArg List.head? ht
        simpa using this
      subst hxy
      rw [List.dropWhile_cons] at hb ⊢
      by_cases hpx : p x = true
      · rw [if_pos hpx] at hb
        have hlen := congrArg List.length hb
        have hle : (b'.dropWhile p).length ≤ b'.length :=
          (List.dropWhile_sublist _).length_le
        simp at hlen
        omega
      · rw [if_neg hpx]

theorem stripCommaSpace_idem (l : List Char) :
    stripCommaSpace (stripCommaSpace l) = stripCommaSpace l := by
  unfold stripCommaSpace
  have h1 : ((l.dropWhile isCommaSpace).rdropWhile isCommaSpace).dropWhile isCommaSpace
      = (l.dropWhile isCommaSpace).rdropWhile isCommaSpace :=
    dropWhile_eq_self_of_prefix
      (List.rdropWhile_prefix isCommaSpace (l.dropWhile isCommaSpace))
      (List.dropWhile_idempotent isCommaSpace l)
  rw [h1, List.rdropWhile_idempotent]

/-! ### Invariants of the clean output, and conditional idempotence -/

/-- Every `clean` output has only plain single spaces and no space directly
before a comma. -/
theorem cleanList_invariants (cs : List Char) :
    spOk (cleanList cs) = true ∧ chainOk ndRel (cleanList cs) = true ∧
      chainOk nscRel (cleanList cs) = true := by
  have hsp1 := collapseWs_spOk cs
  have hnd1 := collapseWs_nd cs
  have hsp2 : spOk (subEmptyCommas (collapseWs cs)) = true :=
    subEmptyCommasGo_spOk _ _ hsp1
  have hnd2 : chainOk ndRel (subEmptyCommas (collapseWs cs)) = true :=
    @subEmptyCommasGo_chain ndRel (by intro b; simp [ndRel]) _ _ hnd1
  have hsp3 := replSpaceComma_spOk _ hsp2
  have hnd3 := replSpaceComma_nd _ hnd2
  have hnsc3 := replSpaceComma_nsc _ hnd2
  have hsp4 : spOk (subCommaWs (replSpaceComma (subEmptyCommas (collapseWs cs)))) = true :=
    subCommaWsGo_spOk _ _ hsp3
  have hnd4 : chainOk ndRel (subCommaWs (replSpaceComma (subEmptyCommas (collapseWs cs)))) = true :=
    subCommaWsGo_nd _ _ hnd3
  have hnsc4 : chainOk nscRel (subCommaWs (replSpaceComma (subEmptyCommas (collapseWs cs)))) = true :=
    subCommaWsGo_nsc _ _ hnsc3 hsp3
  unfold cleanList stripCommaSpace
  set x4 := subCommaWs (replSpaceComma (subEmptyCommas (collapseWs cs))) with hx4
  have hsub : List.Sublist ((x4.dropWhile isCommaSpace).rdropWhile isCommaSpace) x4 :=
    ((List.rdropWhile_prefix _ _).sublist).trans (List.dropWhile_sublist _)
  exact ⟨spOk_sublist hsub hsp4,
    chainOk_prefix (List.rdropWhile_prefix _ _) (chainOk_dropWhile _ hnd4),
    chainOk_prefix (List.rdropWhile_prefix _ _) (chainOk_dropWhile _ hnsc4)⟩

/-! ### Lemma about the branch loop -/

theorem findTrueBranch_eq_find (reS : String → String → Option Bool) (ctx : String)
    (vars : VarMap) (branches : List (String × String)) :
    ∀ k : Nat,
      (findTrueBranch reS ctx vars branches k).map (fun r => (r.1, r.2.1)) =
        branches.find? (fun br => evaluate reS br.1 vars ctx) := by
  induction branches with
  | nil => intro k; rfl
  | cons b rest ih =>
      intro k
      obtain ⟨cnd, tv⟩ := b
      cases he : evaluate reS cnd vars ctx with
      | true => simp [findTrueBranch, List.find?, he]
      | false => simp [findTrueBranch, List.find?, he, ih]

end Umi

/-! ## Theorems for claims C7 and C8 -/

/-- **C8.** `TagSelector.select` maintains a per-tag counter
(`previously_selected_tags`); a call finding the counter above 500 returns
the sentinel `LOOP_ERROR(tag)` and leaves the counter map otherwise
untouched, a call finding it at most 500 proceeds and increments exactly
that tag's counter (other tags' counters are never disturbed); starting
from a fresh run, 501 selections of the same literal tag pass, leaving the
counter at 501, and the following (502nd) call returns the sentinel. -/
theorem select_loop_guard_after_500
    (counts : Umi.TagCounts) (tag other : String) (n : Nat)
    (hcnt : (Umi.tcGet (Umi.tcSetdefault counts tag 0) tag).getD 0 = n) :
    (n > 500 →
      Umi.selectLoopGuard counts tag =
        (some ("LOOP_ERROR(" ++ tag ++ ")"), Umi.tcSetdefault counts tag 0)) ∧
    (n ≤ 500 →
      (Umi.selectLoopGuard counts tag).1 = none ∧
      Umi.tcGet (Umi.selectLoopGuard counts tag).2 tag = some (n + 1)) ∧
    (other ≠ tag →
      Umi.tcGet (Umi.selectLoopGuard counts tag).2 other = Umi.tcGet counts other) ∧
    (Umi.selectLoopGuardIter tag 501 [] = [(tag, 501)] ∧
      (Umi.selectLoopGuard (Umi.selectLoopGuardIter tag 501 []) tag).1 =
        some ("LOOP_ERROR(" ++ tag ++ ")")) := by
  have hiter : Umi.selectLoopGuardIter tag 501 [] = [(tag, 501)] := by
    have h0 : Umi.selectLoopGuard [] tag = (none, [(tag, 1)]) := by
      simp [Umi.selectLoopGuard, Umi.tcSetdefault, Umi.tcGet, Umi.tcSet]
    rw [show (501 : Nat) = 500 + 1 from rfl, Umi.selectLoopGuardIter, h0]
    exact Umi.selectLoopGuardIter_single tag 500 1 (by omega)
  refine ⟨?_, ?_, ?_, hiter, ?_⟩
  · intro hgt
    simp only [Umi.selectLoopGuard, hcnt]
    rw [if_pos hgt]
  · intro hle
    constructor
    · simp only [Umi.selectLoopGuard, hcnt]
      rw [if_neg (by omega)]
    · simp only [Umi.selectLoopGuard, hcnt]
      rw [if_neg (by omega)]
      exact Umi.tcGet_tcSet_self _ _ _
  · intro hne
    simp only [Umi.selectLoopGuard, hcnt]
    by_cases hgt : n > 500
    · rw [if_pos hgt]
      exact Umi.tcGet_tcSetdefault_ne _ _ _ _ hne
    · rw [if_neg hgt]
      rw [Umi.tcGet_tcSet_ne _ _ _ _ hne]
      exact Umi.tcGet_tcSetdefault_ne _ _ _ _ hne
  · rw [hiter]
    simp [Umi.selectLoopGuard, Umi.tcSetdefault, Umi.tcGet, Umi.vmem]

/-- Witness for `select_loop_guard_after_500` at a concrete counter map and
tag. -/
theorem select_loop_guard_after_500_witness :
    (Umi.tcGet (Umi.tcSetdefault [("hair", 501)] "hair" 0) "hair").getD 0 = 501 ∧
    Umi.selectLoopGuard [("hair", 501)] "hair" =
      (some ("LOOP_ERROR(" ++ "hair" ++ ")"), Umi.tcSetdefault [("hair", 501)] "hair" 0) :=
  ⟨by decide, (select_loop_guard_after_500 [("hair", 501)] "hair" "eyes" 501 (by decide)).1
    (by decide)⟩

/-- **C7.** During recursive nested-wildcard resolution
(`TagSelector.resolve_wildcard_recursively`), a `__name__`-wrapped value
whose inner name is already on the `processing_stack` of the current call
chain is returned unexpanded (and the selector state is left unchanged)
instead of being resolved again — this is the guard that makes a
self-referencing wildcard such as `__itself__` terminate with the literal
token in the output rather than recursing forever. -/
theorem resolve_wildcard_stack_guard
    (sel : String → Umi.SelState → String × Umi.SelState)
    (value : String) (seedId : Option String) (st : Umi.SelState)
    (hpre : Umi.pyStartsWith value "__" = true)
    (hsuf : Umi.pyEndsWith value "__" = true)
    (hmem : Umi.pyDropRight (Umi.pyDrop value 2) 2 ∈ st.processingStack) :
    Umi.resolveWildcardRecursively sel value seedId st = (value, st) := by
  unfold Umi.resolveWildcardRecursively
  rw [hpre, hsuf]
  simp only [Bool.and_self, if_true]
  rw [if_pos hmem]

/-- Witness for `resolve_wildcard_stack_guard`: the wildcard `__itself__`
with `itself` already being resolved in the current call chain. -/
theorem resolve_wildcard_stack_guard_witness :
    (Umi.pyStartsWith "__itself__" "__" = true ∧
      Umi.pyEndsWith "__itself__" "__" = true ∧
      Umi.pyDropRight (Umi.pyDrop "__itself__" 2) 2 ∈ ["itself"]) ∧
    Umi.resolveWildcardRecursively (fun t s => (t, s)) "__itself__" none
        ⟨["itself"], []⟩ =
      ("__itself__", ⟨["itself"], []⟩) :=
  ⟨⟨by decide, by decide, by decide⟩,
    resolve_wildcard_stack_guard (fun t s => (t, s)) "__itself__" none
      ⟨["itself"], []⟩ (by decide) (by decide) (by decide)⟩

/-! ## Theorems for claim C2 -/

/-- **C2 counterexample.**  The claim says `"$a != b"` is true exactly when
the stored value of `a` differs case-insensitively from `"b"`.  With
`a = "b"` (values equal, so the claim demands `false`) the evaluator
returns `true`: the tokenizer lexes `!` as `NOT`, so `"$a!=b"` becomes the
tokens `$a`, `NOT`, `=b`, and the final result is the truthiness of `$a`
(the bottom stack entry), not the comparison. -/
theorem neq_comparison_cex :
    Umi.evaluate Umi.reNone "$a != b" [("a", "b")] "" = true ∧
      ¬(Umi.pyLower (Umi.vgetD [("a", "b")] "a" "") ≠ Umi.pyLower "b") :=
  ⟨by decide, by decide⟩

/-- **C2 (amended).**  `left==right` and bare `left=right` (normalised to
`==`) compare case-insensitively after quote-stripping, with the left side
`$var` or a literal.  The `!=` form however is mis-tokenized (`!` lexes as
the `NOT` operator), so `"$a != b"` evaluates to the truthiness of `$a`
(non-empty and not `false`/`0`/`no`), independent of the right side. -/
theorem comparison_semantics (reSearch : String → String → Option Bool)
    (vars : Umi.VarMap) (ctx : String) :
    (Umi.evaluate reSearch "$a == b" vars ctx = true ↔
      Umi.pyLower (Umi.vgetD vars "a" "") = "b") ∧
    (Umi.evaluate reSearch "$a = b" vars ctx = true ↔
      Umi.pyLower (Umi.vgetD vars "a" "") = "b") ∧
    Umi.evaluate reSearch "ab == AB" vars ctx = true ∧
    Umi.evaluate reSearch "'b' == b" vars ctx = true ∧
    Umi.evaluate reSearch "$a != b" vars ctx =
      Umi.coerceBool vars (Umi.pyLower ctx) (.svar "a") := by
  refine ⟨?_, ?_, by rfl, by rfl, by rfl⟩
  · show (decide (Umi.pyLower (Umi.vgetD vars "a" "") = Umi.pyLower "b")) = true ↔ _
    simp [decide_eq_true_eq]
    rfl
  · show (decide (Umi.pyLower (Umi.vgetD vars "a" "") = Umi.pyLower "b")) = true ↔ _
    simp [decide_eq_true_eq]
    rfl

/-! ## Theorems for claim C3 -/

/-- **C3 counterexample.**  The claim says `XOR` binds tighter than `OR`,
so `a OR b XOR c` groups as `a OR (b XOR c)`.  On the code `XOR`, `OR` and
`NOR` share precedence 1 and the shunting-yard pops on `≥`, giving
left-associative `(a OR b) XOR c`: with all three operands true the code
yields `false` while the claimed grouping yields `true`. -/
theorem xor_or_precedence_cex :
    Umi.evaluate Umi.reNone "1==1 OR 1==1 XOR 1==1" [] "" = false ∧
      Umi.evaluate Umi.reNone "1==1 OR (1==1 XOR 1==1)" [] "" = true :=
  ⟨by decide, by decide⟩

/-- **C3 (amended).**  Operator precedence in unparenthesized expressions
is `IN`/`CONTAINS`/`MATCHES`/`STARTSWITH`/`ENDSWITH` (4) > `NOT` (3) >
`AND`/`NAND` (2) > `XOR`/`OR`/`NOR` (all equal, 1); operators of equal
precedence associate to the left, so for any operand tokens `a`, `b`, `c`,
`a OR b XOR c` is parsed as `(a OR b) XOR c` and evaluates to
`(a ∨ b) xor c`. -/
theorem xor_or_equal_precedence (a b c : String)
    (reSearch : String → String → Option Bool) (vars : Umi.VarMap) (ctx : String)
    (hpa : Umi.precOf a = none) (hpb : Umi.precOf b = none)
    (hpc : Umi.precOf c = none)
    (ha1 : a ≠ "(") (ha2 : a ≠ ")") (hb1 : b ≠ "(") (hb2 : b ≠ ")")
    (hc1 : c ≠ "(") (hc2 : c ≠ ")") :
    (Umi.precOf "XOR" = some 1 ∧ Umi.precOf "OR" = some 1 ∧
      Umi.precOf "NOR" = some 1 ∧ Umi.precOf "AND" = some 2 ∧
      Umi.precOf "NAND" = some 2 ∧ Umi.precOf "NOT" = some 3 ∧
      Umi.precOf "IN" = some 4 ∧ Umi.precOf "CONTAINS" = some 4 ∧
      Umi.precOf "MATCHES" = some 4 ∧ Umi.precOf "STARTSWITH" = some 4 ∧
      Umi.precOf "ENDSWITH" = some 4) ∧
    Umi.toPostfixTokens [a, "OR", b, "XOR", c] = [a, b, "OR", c, "XOR"] ∧
    Umi.evaluatePostfixTokens reSearch vars
        (Umi.toPostfixTokens [a, "OR", b, "XOR", c]) ctx =
      ((Umi.coerceBool vars (Umi.pyLower ctx) (Umi.evalOperandToken vars a) ||
          Umi.coerceBool vars (Umi.pyLower ctx) (Umi.evalOperandToken vars b)) !=
        Umi.coerceBool vars (Umi.pyLower ctx) (Umi.evalOperandToken vars c)) := by
  have hpost : Umi.toPostfixTokens [a, "OR", b, "XOR", c] = [a, b, "OR", c, "XOR"] := by
    unfold Umi.toPostfixTokens
    rw [Umi.toPostfixGo, hpa]
    rw [if_neg ha1, if_neg ha2]
    rw [Umi.toPostfixGo]
    show Umi.toPostfixGo [b, "XOR", c] ["OR"] ([] ++ [a] ++ []) = _
    rw [Umi.toPostfixGo, hpb]
    rw [if_neg hb1, if_neg hb2]
    rw [Umi.toPostfixGo]
    show Umi.toPostfixGo [c] ["XOR"] ([] ++ [a] ++ [b] ++ ["OR"]) = _
    rw [Umi.toPostfixGo, hpc]
    rw [if_neg hc1, if_neg hc2]
    rw [Umi.toPostfixGo]
    simp
  refine ⟨by decide, hpost, ?_⟩
  rw [hpost]
  have hop : ∀ (tok : String), Umi.precOf tok = none →
      ∀ (rest : List String) (stack : List Umi.StackVal),
        Umi.evaluatePostfixGo reSearch vars (Umi.pyLower ctx) (tok :: rest) stack =
          Umi.evaluatePostfixGo reSearch vars (Umi.pyLower ctx) rest
            (Umi.evalOperandToken vars tok :: stack) := by
    intro tok hp rest stack
    have hAND : ¬(tok = "AND") := fun h => by simp [h, Umi.precOf] at hp
    have hOR : ¬(tok = "OR") := fun h => by simp [h, Umi.precOf] at hp
    have hNOT : ¬(tok = "NOT") := fun h => by simp [h, Umi.precOf] at hp
    have hXOR : ¬(tok = "XOR") := fun h => by simp [h, Umi.precOf] at hp
    have hNAND : ¬(tok = "NAND") := fun h => by simp [h, Umi.precOf] at hp
    have hNOR : ¬(tok = "NOR") := fun h => by simp [h, Umi.precOf] at hp
    have hIN : ¬(tok = "IN") := fun h => by simp [h, Umi.precOf] at hp
    have hCONTAINS : ¬(tok = "CONTAINS") := fun h => by simp [h, Umi.precOf] at hp
    have hMATCHES : ¬(tok = "MATCHES") := fun h => by simp [h, Umi.precOf] at hp
    have hSW : ¬(tok = "STARTSWITH") := fun h => by simp [h, Umi.precOf] at hp
    have hEW : ¬(tok = "ENDSWITH") := fun h => by simp [h, Umi.precOf] at hp
    conv_lhs => rw [Umi.evaluatePostfixGo.eq_def]
    simp only [hAND, hOR, hNOT, hXOR, hNAND, hNOR, hIN, hCONTAINS, hMATCHES,
      hSW, hEW, if_false]
  unfold Umi.evaluatePostfixTokens
  rw [hop a hpa, hop b hpb]
  rw [show Umi.evaluatePostfixGo reSearch vars (Umi.pyLower ctx)
      ("OR" :: [c, "XOR"])
      [Umi.evalOperandToken vars b, Umi.evalOperandToken vars a] =
    Umi.evaluatePostfixGo reSearch vars (Umi.pyLower ctx) [c, "XOR"]
      [.sbool (Umi.coerceBool vars (Umi.pyLower ctx) (Umi.evalOperandToken vars a) ||
        Umi.coerceBool vars (Umi.pyLower ctx) (Umi.evalOperandToken vars b))] from rfl]
  rw [hop c hpc]
  rfl

/-- Witness for `xor_or_equal_precedence` at concrete operand tokens. -/
theorem xor_or_equal_precedence_witness :
    Umi.toPostfixTokens ["1==1", "OR", "1==1", "XOR", "1==1"] =
      ["1==1", "1==1", "OR", "1==1", "XOR"] :=
  (xor_or_equal_precedence "1==1" "1==1" "1==1" Umi.reNone [] ""
    (by decide) (by decide) (by decide) (by decide) (by decide) (by decide)
    (by decide) (by decide) (by decide)).2.1

/-! ## Theorems for claim C4 -/

/-- **C4 counterexample.**  The claim's winner rule "first option whose
cumulative sum is greater than or equal to the roll" differs from the code
(`if roll < cumulative`, strictly greater) at a boundary roll: for
`{0%A|B}` with roll `0`, the claimed rule picks `A` (cumulative `0 ≥ 0`)
while the code skips the 0% option and picks `B`. -/
theorem pct_roll_boundary_cex :
    Umi.pctBranch "0%A|B" 0 = some "B" ∧
      Umi.specPctBranchGeq "0%A|B" 0 = some "A" := by
  constructor <;>
    norm_num +decide [Umi.pctBranch, Umi.specPctBranchGeq, Umi.pyStartsWith,
      Umi.containsSub, Umi.containsSubList, Umi.splitOnPipe, Umi.parsePctParts,
      Umi.pyStrip, Umi.pyStripList, Umi.isPySpace, Umi.splitOnceList, Umi.pyFloat,
      Umi.pyFloat.pyFloatExp, Umi.digitsToNat, Umi.fillPct, Umi.pctTotal,
      Umi.walkPctGo, Umi.specWalkGeqGo]

theorem pctTotal_cons (o : Umi.PctOpt) (rest : List Umi.PctOpt) :
    Umi.pctTotal (o :: rest) = o.pct.getD 0 + Umi.pctTotal rest := by
  simp [Umi.pctTotal]

theorem pctTotal_map_mul (opts : List Umi.PctOpt) (k : ℚ) :
    Umi.pctTotal (opts.map fun o => ⟨some (o.pct.getD 0 * k), o.text⟩) =
      Umi.pctTotal opts * k := by
  induction opts with
  | nil => simp [Umi.pctTotal]
  | cons o rest ih =>
    simp only [List.map_cons, pctTotal_cons, Option.getD_some]
    rw [ih]
    ring

theorem pctTotal_nonneg (l : List Umi.PctOpt)
    (h : ∀ x ∈ l, 0 ≤ x.pct.getD 0) : 0 ≤ Umi.pctTotal l := by
  induction l with
  | nil => simp [Umi.pctTotal]
  | cons o rest ih =>
    rw [pctTotal_cons]
    exact add_nonneg (h o (by simp)) (ih fun x hx => h x (by simp [hx]))

theorem walkPctGo_wins (roll : ℚ) (pre : List Umi.PctOpt) (o : Umi.PctOpt)
    (post : List Umi.PctOpt) (cum : ℚ)
    (hnn : ∀ x ∈ pre, 0 ≤ x.pct.getD 0)
    (h1 : cum + Umi.pctTotal pre ≤ roll)
    (h2 : roll < cum + Umi.pctTotal pre + o.pct.getD 0) :
    Umi.walkPctGo roll cum (pre ++ o :: post) = some o.text := by
  induction pre generalizing cum with
  | nil =>
    simp only [Umi.pctTotal, List.map_nil, List.sum_nil, add_zero] at h1 h2
    simp only [List.nil_append, Umi.walkPctGo]
    rw [if_pos h2]
  | cons p pre' ih =>
    have hp : 0 ≤ p.pct.getD 0 := hnn p (by simp)
    have hrest : 0 ≤ Umi.pctTotal pre' :=
      pctTotal_nonneg pre' fun x hx => hnn x (by simp [hx])
    rw [pctTotal_cons] at h1 h2
    simp only [List.cons_append, Umi.walkPctGo]
    rw [if_neg (by linarith)]
    exact ih (cum + p.pct.getD 0) (fun x hx => hnn x (by simp [hx]))
      (by linarith) (by linarith)

theorem walkPctGo_miss (roll : ℚ) (opts : List Umi.PctOpt) (cum : ℚ)
    (hnn : ∀ x ∈ opts, 0 ≤ x.pct.getD 0)
    (h1 : cum + Umi.pctTotal opts ≤ roll) :
    Umi.walkPctGo roll cum opts = none := by
  induction opts generalizing cum with
  | nil => rfl
  | cons o rest ih =>
    have hrest : 0 ≤ Umi.pctTotal rest :=
      pctTotal_nonneg rest fun x hx => hnn x (by simp [hx])
    rw [pctTotal_cons] at h1
    simp only [Umi.walkPctGo]
    rw [if_neg (by linarith)]
    exact ih (cum + o.pct.getD 0) (fun x hx => hnn x (by simp [hx])) (by linarith)

/-- **C4 (amended).**  In the percentage branch: options without an
explicit `N%` share get `0` when the explicit sum is at least 100 and an
equal split `(100 - sum)/count` of the remainder otherwise; if the filled
total exceeds 100 every share is scaled by `100/total` and the scaled
shares sum to exactly 100; the winner is the first option whose cumulative
sum **strictly exceeds** the roll (`roll < cumulative` in the code — at a
boundary `cumulative = roll` the option is skipped, so `0%` options are
never picked at roll 0); and when the roll is at or past the summed total
no option wins (with total < 100 the branch then yields the empty
string — e.g. `{15%A|15%B}` at roll 54). -/
theorem pct_semantics :
    (∀ (opts : List Umi.PctOpt) (te : ℚ) (u : Nat), te ≥ 100 →
      Umi.fillPct opts te u = opts.map fun o => ⟨some (o.pct.getD 0), o.text⟩) ∧
    (∀ (opts : List Umi.PctOpt) (te : ℚ) (u : Nat), te < 100 → 0 < u →
      Umi.fillPct opts te u =
        opts.map fun o => ⟨some (o.pct.getD ((100 - te) / u)), o.text⟩) ∧
    (∀ opts : List Umi.PctOpt, Umi.pctTotal opts > 100 →
      Umi.pctTotal
        (opts.map fun o => ⟨some (o.pct.getD 0 * (100 / Umi.pctTotal opts)), o.text⟩) =
        100) ∧
    (∀ (roll : ℚ) (pre : List Umi.PctOpt) (o : Umi.PctOpt) (post : List Umi.PctOpt),
      (∀ x ∈ pre, 0 ≤ x.pct.getD 0) → Umi.pctTotal pre ≤ roll →
      roll < Umi.pctTotal pre + o.pct.getD 0 →
      Umi.walkPctGo roll 0 (pre ++ o :: post) = some o.text) ∧
    (∀ (roll : ℚ) (opts : List Umi.PctOpt),
      (∀ x ∈ opts, 0 ≤ x.pct.getD 0) → Umi.pctTotal opts ≤ roll →
      Umi.walkPctGo roll 0 opts = none) ∧
    Umi.pctBranch "15%A|15%B" 54 = some "" := by
  refine ⟨?_, ?_, ?_, ?_, ?_, by
    norm_num +decide [Umi.pctBranch, Umi.pyStartsWith, Umi.containsSub,
      Umi.containsSubList, Umi.splitOnPipe, Umi.parsePctParts, Umi.pyStrip,
      Umi.pyStripList, Umi.isPySpace, Umi.splitOnceList, Umi.pyFloat,
      Umi.pyFloat.pyFloatExp, Umi.fillPct, Umi.pctTotal, Umi.walkPctGo,
      (by decide : Umi.digitsToNat ['1', '5'] = 15),
      (by decide : Umi.digitsToNat [] = 0)]⟩
  · intro opts te u h
    rw [Umi.fillPct, if_pos h]
  · intro opts te u h hu
    rw [Umi.fillPct, if_neg (not_le.mpr h)]
    simp [hu]
  · intro opts h
    have htne : Umi.pctTotal opts ≠ 0 := by
      intro h0
      rw [h0] at h
      norm_num at h
    rw [pctTotal_map_mul, mul_comm, div_mul_cancel₀ _ htne]
  · intro roll pre o post hnn h1 h2
    exact walkPctGo_wins roll pre o post 0 hnn (by linarith) (by linarith)
  · intro roll opts hnn h1
    exact walkPctGo_miss roll opts 0 hnn (by linarith)

/-- Witness for `pct_semantics`: the winner rule at a concrete block
`50%A|50%B` with roll 50 picks `B` (first cumulative strictly above 50). -/
theorem pct_semantics_witness :
    ((∀ x ∈ [(⟨some 50, "A"⟩ : Umi.PctOpt)], 0 ≤ x.pct.getD 0) ∧
      Umi.pctTotal [(⟨some 50, "A"⟩ : Umi.PctOpt)] ≤ 50 ∧
      (50 : ℚ) < Umi.pctTotal [(⟨some 50, "A"⟩ : Umi.PctOpt)] +
        (⟨some 50, "B"⟩ : Umi.PctOpt).pct.getD 0) ∧
    Umi.walkPctGo 50 0 ([(⟨some 50, "A"⟩ : Umi.PctOpt)] ++ [⟨some 50, "B"⟩]) =
      some "B" :=
  ⟨⟨by intro x hx; simp at hx; simp [hx], by norm_num [Umi.pctTotal],
      by norm_num [Umi.pctTotal]⟩,
    pct_semantics.2.2.2.1 50 [⟨some 50, "A"⟩] ⟨some 50, "B"⟩ []
      (by intro x hx; simp at hx; simp [hx]) (by norm_num [Umi.pctTotal])
      (by norm_num [Umi.pctTotal])⟩

/-! ## Theorems for claim C6 -/

/-- **C6 counterexample.**  The claim says malformed expressions, including
those with unbalanced parentheses, evaluate to `false`.  The unbalanced
expression `"(a"` against context `"a"` evaluates to `true`: the stray `(`
is flushed onto the output as an operand and the final result coerces the
bottom stack entry, the bare token `a`, which word-matches the context. -/
theorem malformed_paren_cex :
    Umi.evaluate Umi.reNone "(a" [] "a" = true := by decide

/-- **C6 (amended).**  The evaluator is a total function (the embedding has
no failure path), and malformed expressions of the empty, missing-operand
and invalid-`MATCHES`-pattern kinds evaluate to `false`; expressions with
unbalanced parentheses need not (see the counterexample). -/
theorem malformed_evaluates_false (reSearch : String → String → Option Bool)
    (vars : Umi.VarMap) (ctx : String)
    (hre : reSearch "[" "x" = none) :
    Umi.evaluate reSearch "" vars ctx = false ∧
    Umi.evaluate reSearch "NOT" vars ctx = false ∧
    Umi.evaluate reSearch "x AND" vars ctx = false ∧
    Umi.evaluate reSearch "x MATCHES '['" vars ctx = false := by
  refine ⟨rfl, rfl, rfl, ?_⟩
  have h : Umi.evaluate reSearch "x MATCHES '['" vars ctx =
      (reSearch "[" "x").getD false := rfl
  rw [h, hre]
  rfl

/-- Witness for `malformed_evaluates_false` with the trivial `re` oracle. -/
theorem malformed_evaluates_false_witness :
    Umi.reNone "[" "x" = none ∧
      Umi.evaluate Umi.reNone "x MATCHES '['" [] "woman" = false :=
  ⟨rfl, (malformed_evaluates_false Umi.reNone [] "woman" rfl).2.2.2⟩

/-! ## Theorems for claim C10 -/

/-- **C10 counterexample.** The `[clean:]` function is not idempotent: on
`"a , , ,b"` one application yields `"a,,b"` (the non-overlapping
`,\s*,+` pass merges only the first pair of commas and the `' ,' → ','`
replacement then creates a new `",,"`), while a second application yields
`"a,b"`. -/
theorem clean_not_idempotent :
    Umi.cleanFn (Umi.cleanFn "a , , ,b") ≠ Umi.cleanFn "a , , ,b" ∧
      Umi.cleanFn "a , , ,b" = "a,,b" ∧
      Umi.cleanFn (Umi.cleanFn "a , , ,b") = "a,b" := by
  refine ⟨?_, by decide, by decide⟩
  decide

/-- **C10 (amended).** `clean(clean(x)) = clean(x)` holds for every input
whose cleaned form contains no two adjacent commas; in general the claim
fails (see the counterexample, where the cleaned form contains `",,"`). -/
theorem clean_idempotent_of_no_double_comma (s : String)
    (h : Umi.chainOk Umi.nccRel (Umi.cleanFn s).data = true) :
    Umi.cleanFn (Umi.cleanFn s) = Umi.cleanFn s := by
  obtain ⟨hsp, hnd, hnsc⟩ := Umi.cleanList_invariants s.data
  have h' : Umi.chainOk Umi.nccRel (Umi.cleanList s.data) = true := h
  have h1 : Umi.collapseWs (Umi.cleanList s.data) = Umi.cleanList s.data :=
    Umi.collapseWs_id _ hsp hnd
  have h2 : Umi.subEmptyCommas (Umi.cleanList s.data) = Umi.cleanList s.data :=
    Umi.subEmptyCommasGo_id _ _ hsp hnd hnsc h'
  have h3 : Umi.replSpaceComma (Umi.cleanList s.data) = Umi.cleanList s.data :=
    Umi.replSpaceComma_id _ hnsc
  have h4 : Umi.subCommaWs (Umi.cleanList s.data) = Umi.cleanList s.data :=
    Umi.subCommaWsGo_id _ _ hsp hnd
  have h5 : Umi.stripCommaSpace (Umi.cleanList s.data) = Umi.cleanList s.data :=
    Umi.stripCommaSpace_idem
      (Umi.subCommaWs (Umi.replSpaceComma (Umi.subEmptyCommas (Umi.collapseWs s.data))))
  show (⟨Umi.cleanList (Umi.cleanList s.data)⟩ : String) = ⟨Umi.cleanList s.data⟩
  have : Umi.cleanList (Umi.cleanList s.data) = Umi.cleanList s.data := by
    conv_lhs => rw [Umi.cleanList]
    rw [h1, h2, h3, h4]
    exact h5
  rw [this]

/-- Witness for `clean_idempotent_of_no_double_comma` on a concrete input
whose cleaned form has no adjacent commas. -/
theorem clean_idempotent_witness :
    Umi.chainOk Umi.nccRel (Umi.cleanFn "blue  hair ,  red eyes").data = true ∧
    Umi.cleanFn (Umi.cleanFn "blue  hair ,  red eyes") =
      Umi.cleanFn "blue  hair ,  red eyes" :=
  ⟨by decide, clean_idempotent_of_no_double_comma _ (by decide)⟩

/-! ## Theorems for claim C1 -/

/-- **C1 counterexample.** The claim says two calls of the render pipeline
with identical `(T, s, G)` yield identical output *across runs* even for
templates with debug variables set.  With `debug=1`, `init_debug_context`
stores `debug_run_id = f"{seed}-{now_ms}"` and `append_debug_summary`
embeds it in the output line, so two runs at different wall-clock
milliseconds (here 1 and 2) produce different positive prompts. -/
theorem summary_stage_debug_run_id_not_deterministic :
    Umi.summaryStage "x" [("debug", "1")] 0 1 ≠
      Umi.summaryStage "x" [("debug", "1")] 0 2 := by
  decide

/-- **C1 (amended).** The render pipeline is deterministic in `(T, s, G)`
provided neither the trace nor the debug variable is enabled: the
wall-clock timestamp (the only run-varying input of the summary stage)
does not influence the output.  With trace/debug enabled the appended
summary line embeds a `seed-ms` run id and runs at different milliseconds
differ. -/
theorem summary_stage_deterministic_without_trace_debug
    (prompt : String) (vars : Umi.VarMap) (seed t1 t2 : Int)
    (htr : Umi.isTraceEnabled vars = false)
    (hdb : Umi.isDebugEnabled vars = false) :
    Umi.summaryStage prompt vars seed t1 = Umi.summaryStage prompt vars seed t2 := by
  simp [Umi.summaryStage, Umi.initDebugContext, Umi.initTraceContext, htr, hdb]

/-- Witness for `summary_stage_deterministic_without_trace_debug` at a
concrete prompt, variables map, seed and two distinct timestamps. -/
theorem summary_stage_deterministic_witness :
    (Umi.isTraceEnabled [("mood", "happy")] = false ∧
      Umi.isDebugEnabled [("mood", "happy")] = false) ∧
    Umi.summaryStage "smiling" [("mood", "happy")] 3 5 =
      Umi.summaryStage "smiling" [("mood", "happy")] 3 9 :=
  ⟨⟨by decide, by decide⟩,
    summary_stage_deterministic_without_trace_debug "smiling" [("mood", "happy")]
      3 5 9 (by decide) (by decide)⟩


/-- C5: `ConditionalReplacer.replace` does evaluate the branch conditions
in order against the surrounding text and emit the first true branch (the
else text when none holds), but on the spec's own piped example the pipe
separator before `elif` stays inside the branch text: with `x` mapped to
`yes`, `[if $x==yes: A | elif $x==no: B | else: C]` yields `A |` (with a
trailing pipe), not `A`. -/
theorem conditional_pipe_elif_cex :
    (Umi.conditionalReplace "[if $x==yes: A | elif $x==no: B | else: C]"
        [("x", "yes")] Umi.reNone).1 = "A |" ∧ ("A |" : String) ≠ "A" :=
  ⟨by decide, by decide⟩

/-- C5 (amended): the branch loop picks exactly the first branch, in
order, whose condition evaluates true (it agrees with `List.find?` over
the branch list), and on the pipe-free template
`[if $x==yes: A elif $x==no: B else: C]` the replacement is `A` when `x`
maps to `yes`, `B` when `x` maps to `no`, and the else text `C` when `x`
is unset. -/
theorem conditional_branch_selection :
    (∀ (reS : String → String → Option Bool) (ctx : String) (vars : Umi.VarMap)
        (branches : List (String × String)),
        (Umi.findTrueBranch reS ctx vars branches 0).map (fun r => (r.1, r.2.1)) =
          branches.find? (fun br => Umi.evaluate reS br.1 vars ctx)) ∧
    (Umi.conditionalReplace "[if $x==yes: A elif $x==no: B else: C]"
        [("x", "yes")] Umi.reNone).1 = "A" ∧
    (Umi.conditionalReplace "[if $x==yes: A elif $x==no: B else: C]"
        [("x", "no")] Umi.reNone).1 = "B" ∧
    (Umi.conditionalReplace "[if $x==yes: A elif $x==no: B else: C]"
        [] Umi.reNone).1 = "C" :=
  ⟨fun reS ctx vars branches => Umi.findTrueBranch_eq_find reS ctx vars branches 0,
   by decide, by decide, by decide⟩

/-- C9: `VariableReplacer.replace_variables` resolves variable-to-variable
references (up to depth 10) and applies the fallback, coalesce and
method substitutions against a temporarily updated copy of the variables
map, restoring the pre-call copy before returning: for every text and
every starting map, the stored map after the call equals its value before
the call. -/
theorem replace_variables_restores_vars (text : String) (vars : Umi.VarMap) :
    (Umi.replaceVariables text vars).2 = vars := rfl
